import Mathlib

/-!
Shallow embedding of `EncryptionStream.cpp` (namespace `TWN`): the stream-cipher
decryption adapter and the block-cipher encryption/decryption adapters, with
proofs of the buffering, alignment, padding and error-handling properties
stated in the specification.

Bytes are modelled as `Nat` (the C++ buffers hold `uint8_t`; a value is reduced
mod 256 exactly where the source casts).  The fixed 4096-byte windows are lists
of length `capacity`, with `Nat` cursors standing for the source's pointers.
Fallible operations return a `Bool` alongside the new state; assertion failures
(`TWN_REQUIRE` / `TWN_BUG`, whose definitions are outside `src/`) surface as a
`false` result, following the error-handling design of the spec (§7: contract
violations and data corruption are reported, never silently corrected).
-/

namespace TWN

/-- Window capacity of every fixed buffer: `TWN_ARRAY_SIZE(m_buffer) = 4096`. -/
def capacity : Nat := 4096

/-- Overwrite `buf` starting at `pos` with `data`: the model of the source's
`memcpy` / `memmove` / pointer writes into a fixed window.  If the write would
run past the end of the window the resulting list is longer than the window,
so "the buffer keeps its length" is exactly "the write stayed in bounds". -/
def writeAt (buf : List Nat) (pos : Nat) (data : List Nat) : List Nat :=
  buf.take pos ++ data ++ buf.drop (pos + data.length)

/-- Modelled from the spec: the external cipher primitive of §6 (`SSLCrypto` /
`XBCrypto`, selected by `USE_BCRYPT`; its implementation is not part of
`src/`).  `tf` maps the entire byte sequence fed to a session so far to the
entire output sequence, and a `Cipher` call returns the output bytes beyond
those already produced, so the model covers any deterministic online cipher
(ECB, CBC or CTR chaining all fit).  `hist` is the input consumed so far. -/
structure SSLCrypto where
  tf : List Nat → List Nat
  hist : List Nat

/-- One `Cipher(buffer, length)` call on a session: feed `chunk`, obtain the
newly produced bytes (`bytesProduced` is their length). -/
def SSLCrypto.Cipher (c : SSLCrypto) (chunk : List Nat) : List Nat × SSLCrypto :=
  ((c.tf (c.hist ++ chunk)).drop c.hist.length, { c with hist := c.hist ++ chunk })

/-- Cipher contract (§6, block mode): bytes produced = bytes consumed. -/
def LenPres (t : List Nat → List Nat) : Prop := ∀ xs, (t xs).length = xs.length

/-- Cipher contract (§6): the transform is online — output produced so far
depends only on the input consumed so far. -/
def Causal (t : List Nat → List Nat) : Prop :=
  ∀ xs ys, (t (xs ++ ys)).take xs.length = t xs

/-- A wrapped `ReadStream`: the sequence of spans its `NextRead` serves. -/
abbrev Source := List (List Nat)

/-- Total bytes remaining in a wrapped source. -/
def sourceBytes (src : Source) : Nat := (src.map List.length).sum

/-- `AdvanceRead(n)` on the wrapped source: consume `n` bytes of the current
span; a fully consumed span is replaced by the next one. -/
def sourceAdvance (src : Source) (n : Nat) : Source :=
  match src with
  | [] => []
  | c :: rest => if n < c.length then c.drop n :: rest else rest

/-! ## DecryptionStream (stream-cipher decryptor, lines 43-107) -/

structure DecryptionStream where
  crypto : SSLCrypto
  buffer : List Nat
  readPos : Nat
  readEnd : Nat
  source : Source

/-- `GetAvailableRead`: `m_readEnd - m_readPos`. -/
def DecryptionStream.GetAvailableRead (s : DecryptionStream) : Nat :=
  s.readEnd - s.readPos

/-- Constructor `DecryptionStream(ReadStream* source)`: cursors at the buffer
start; the window's initial contents are unspecified, modelled as zeros. -/
def DecryptionStream.new (src : Source) : DecryptionStream :=
  { crypto := ⟨fun xs => xs, []⟩, buffer := List.replicate capacity 0,
    readPos := 0, readEnd := 0, source := src }

/-- `Init`: installs the cipher session (algorithm/key/iv abstracted into the
transform `tf`), streaming mode, decrypt direction. -/
def DecryptionStream.Init (s : DecryptionStream) (tf : List Nat → List Nat) :
    DecryptionStream :=
  { s with crypto := ⟨tf, []⟩ }

/-- `DecryptionStream::Decrypt` (lines 89-107): reset cursors, pull one span,
copy up to a window's worth, advance the source, transform in place, set
read-end to the bytes produced. -/
def DecryptionStream.Decrypt (s : DecryptionStream) : DecryptionStream × Bool :=
  let s0 := { s with readPos := 0, readEnd := 0 }
  match s.source with
  | [] => (s0, false)
  | chunk :: rest =>
    let len := min capacity chunk.length
    let buf := writeAt s0.buffer 0 (chunk.take len)
    let src' := sourceAdvance (chunk :: rest) len
    let co := SSLCrypto.Cipher s0.crypto (buf.take len)
    let buf' := writeAt buf 0 co.1
    ({ s0 with crypto := co.2, buffer := buf', readEnd := co.1.length,
               source := src' }, true)

/-- `DecryptionStream::NextRead` (lines 56-74): refill if empty, then expose
the span `[readPos, readEnd)` (`none` models returning `false`). -/
def DecryptionStream.NextRead (s : DecryptionStream) :
    DecryptionStream × Option (List Nat) :=
  let r := if s.GetAvailableRead = 0 then s.Decrypt else (s, true)
  if r.2 then
    (r.1, some ((r.1.buffer.drop r.1.readPos).take r.1.GetAvailableRead))
  else (r.1, none)

/-- `DecryptionStream::AdvanceRead` (lines 76-87): `TWN_REQUIRE(bytes <=
GetAvailableRead())`, advance on success, report failure without mutating. -/
def DecryptionStream.AdvanceRead (s : DecryptionStream) (bytes : Nat) :
    DecryptionStream × Bool :=
  if bytes ≤ s.GetAvailableRead then ({ s with readPos := s.readPos + bytes }, true)
  else (s, false)

/-! ## BlockEncryptionStream (lines 123-207) -/

structure BlockEncryptionStream where
  crypto : SSLCrypto
  blockSize : Nat
  buffer : List Nat
  encrypedBuffer : List Nat
  writePos : Nat
  /-- Bytes delivered so far to the wrapped sink `m_dest` (modelled as a
  never-failing memory sink, per the wrapped-stream contract of §6). -/
  out : List Nat

/-- `GetAvailableRead`: `m_writePos - m_buffer`, the accumulated byte count. -/
def BlockEncryptionStream.GetAvailableRead (s : BlockEncryptionStream) : Nat :=
  s.writePos

/-- Constructor `BlockEncryptionStream(WriteStream* dest)`. -/
def BlockEncryptionStream.new : BlockEncryptionStream :=
  { crypto := ⟨fun xs => xs, []⟩, blockSize := 0,
    buffer := List.replicate capacity 0,
    encrypedBuffer := List.replicate capacity 0, writePos := 0, out := [] }

/-- `BlockEncryptionStream::Init` (lines 131-136): `m_blockSize =
static_cast<int>(keySize)`, then initialize the cipher session (block mode). -/
def BlockEncryptionStream.Init (s : BlockEncryptionStream)
    (tf : List Nat → List Nat) (keySize : Nat) : BlockEncryptionStream :=
  { s with blockSize := keySize, crypto := ⟨tf, []⟩ }

/-- `BlockEncryptionStream::NextWrite` (lines 138-143): the writable span
starts at `m_writePos` and has length `4096 - GetAvailableRead()`. -/
def BlockEncryptionStream.NextWrite (s : BlockEncryptionStream) : Nat :=
  capacity - s.GetAvailableRead

/-- Core of `AdvanceWrite` (lines 145-171), after the caller's bytes are
already in the window: transform whole blocks out of the accumulation buffer
into `m_encrypedBuffer`, compact the remainder to the front, and forward the
transformed bytes to the sink (`Stream::Copy(m_encrypedBuffer, *m_dest,
written)`); below block size just advance the write cursor. -/
def BlockEncryptionStream.advance (s : BlockEncryptionStream) (bytes : Nat) :
    BlockEncryptionStream × Bool :=
  let totalBytes := bytes + s.GetAvailableRead
  if s.blockSize ≤ totalBytes then
    let bytesToWrite := totalBytes - totalBytes % s.blockSize
    let remainingBytes := totalBytes - bytesToWrite
    let co := SSLCrypto.Cipher s.crypto (s.buffer.take bytesToWrite)
    let encBuf := writeAt s.encrypedBuffer 0 co.1
    let buf' := writeAt s.buffer 0 ((s.buffer.drop bytesToWrite).take remainingBytes)
    ({ s with crypto := co.2, buffer := buf', encrypedBuffer := encBuf,
              writePos := remainingBytes,
              out := s.out ++ encBuf.take co.1.length }, true)
  else
    ({ s with writePos := totalBytes }, true)

/-- `BlockEncryptionStream::AdvanceWrite`: the caller wrote `data` into the
span returned by `NextWrite` (starting at `m_writePos`) and commits it. -/
def BlockEncryptionStream.AdvanceWrite (s : BlockEncryptionStream)
    (data : List Nat) : BlockEncryptionStream × Bool :=
  BlockEncryptionStream.advance
    { s with buffer := writeAt s.buffer s.writePos data } data.length

/-- The padding trailer itself: `paddingLen - 1` zero bytes, then one byte
`static_cast<uint8_t>(paddingLen)`. -/
def padTrailer (paddingLen : Nat) : List Nat :=
  List.replicate (paddingLen - 1) 0 ++ [paddingLen % 256]

/-- `BlockEncryptionStream::Pad` (lines 182-207): returns the padded buffer,
the padding length actually appended (`0` on the failure path), and whether
padding succeeded (`false` models the fatal `TWN_BUG` for insufficient
space). -/
def Pad (blockSize : Nat) (buffer : List Nat) (bufferLen dataLen : Nat) :
    List Nat × Nat × Bool :=
  let paddingLen := blockSize - dataLen % blockSize
  if dataLen + paddingLen < bufferLen then
    (writeAt buffer dataLen (padTrailer paddingLen), paddingLen, true)
  else
    (buffer, 0, false)

/-- `BlockEncryptionStream::Flush` (lines 173-180): pad the accumulated bytes,
`TWN_REQUIRE` block alignment, and push the padding through `AdvanceWrite`.
The `Bool` is `false` when `Pad`'s `TWN_BUG` or the `TWN_REQUIRE` fired. -/
def BlockEncryptionStream.Flush (s : BlockEncryptionStream) :
    BlockEncryptionStream × Bool :=
  let p := Pad s.blockSize s.buffer capacity s.GetAvailableRead
  let req := (s.GetAvailableRead + p.2.1) % s.blockSize = 0
  let s' := BlockEncryptionStream.advance { s with buffer := p.1 } p.2.1
  (s'.1, p.2.2 && decide req)

/-! ## BlockDecryptionStream (lines 214-327) -/

structure BlockDecryptionStream where
  crypto : SSLCrypto
  blockSize : Nat
  /-- `m_buffer`: the plaintext window. -/
  buffer : List Nat
  /-- `m_encrypedBuffer`: the ciphertext accumulation buffer. -/
  encrypedBuffer : List Nat
  readPos : Nat
  readEnd : Nat
  writePos : Nat
  source : Source

/-- `GetAvailableRead`: `m_readEnd - m_readPos`. -/
def BlockDecryptionStream.GetAvailableRead (s : BlockDecryptionStream) : Nat :=
  s.readEnd - s.readPos

/-- `GetUsedWrite`: `m_writePos - m_encrypedBuffer`. -/
def BlockDecryptionStream.GetUsedWrite (s : BlockDecryptionStream) : Nat :=
  s.writePos

/-- `GetAvailableWrite`: `TWN_ARRAY_SIZE(m_encrypedBuffer) - GetUsedWrite()`. -/
def BlockDecryptionStream.GetAvailableWrite (s : BlockDecryptionStream) : Nat :=
  capacity - s.GetUsedWrite

/-- Constructor `BlockDecryptionStream(ReadStream* source)`. -/
def BlockDecryptionStream.new (src : Source) : BlockDecryptionStream :=
  { crypto := ⟨fun xs => xs, []⟩, blockSize := 0,
    buffer := List.replicate capacity 0,
    encrypedBuffer := List.replicate capacity 0,
    readPos := 0, readEnd := 0, writePos := 0, source := src }

/-- `BlockDecryptionStream::Init` (lines 224-229): `m_blockSize =
static_cast<int>(keySize)`, cipher session in block mode, decrypt direction. -/
def BlockDecryptionStream.Init (s : BlockDecryptionStream)
    (tf : List Nat → List Nat) (keySize : Nat) : BlockDecryptionStream :=
  { s with blockSize := keySize, crypto := ⟨tf, []⟩ }

/-- `BlockDecryptionStream::AdvanceRead` (lines 251-262): identical contract
to the stream-cipher decryptor's. -/
def BlockDecryptionStream.AdvanceRead (s : BlockDecryptionStream) (bytes : Nat) :
    BlockDecryptionStream × Bool :=
  if bytes ≤ s.GetAvailableRead then ({ s with readPos := s.readPos + bytes }, true)
  else (s, false)

/-- One full state after an iteration of the `Decrypt` pull loop: pull the
current span (bounded by spare ciphertext capacity), then transform every
whole block except a deliberately withheld final block, compacting the
withheld tail to the buffer's front.  `bytesToRead = availableBytes -
availableBytes % blockSize - blockSize` is `int` arithmetic guarded by
`> 0`, which truncated `Nat` subtraction models exactly. -/
def BlockDecryptionStream.decryptPass (s : BlockDecryptionStream)
    (chunk : List Nat) (rest : Source) : BlockDecryptionStream × Nat :=
  let len := min s.GetAvailableWrite chunk.length
  let encBuf := writeAt s.encrypedBuffer s.writePos (chunk.take len)
  let writePos' := s.writePos + len
  let src' := sourceAdvance (chunk :: rest) len
  let availableBytes := writePos'
  let bytesToRead := availableBytes - availableBytes % s.blockSize - s.blockSize
  let remainingBytes := availableBytes - bytesToRead
  if 0 < bytesToRead then
    let co := SSLCrypto.Cipher s.crypto (encBuf.take bytesToRead)
    let pbuf := writeAt s.buffer 0 co.1
    let encBuf' := writeAt encBuf 0 ((encBuf.drop bytesToRead).take remainingBytes)
    ({ s with crypto := co.2, buffer := pbuf, encrypedBuffer := encBuf',
              readEnd := co.1.length, writePos := remainingBytes,
              source := src' }, len)
  else
    ({ s with encrypedBuffer := encBuf, writePos := writePos', source := src' }, len)

/-- The `while` loop of `BlockDecryptionStream::Decrypt` (lines 298-324),
fuelled: loop while there is spare ciphertext capacity, less than one block of
plaintext is available, and the source still serves a span. -/
def BlockDecryptionStream.decryptLoop (fuel : Nat) (s : BlockDecryptionStream)
    (bytesRead : Nat) : BlockDecryptionStream × Nat :=
  match fuel with
  | 0 => (s, bytesRead)
  | fuel + 1 =>
    if 0 < s.GetAvailableWrite ∧ s.GetAvailableRead < s.blockSize then
      match s.source with
      | [] => (s, bytesRead)
      | chunk :: rest =>
        let r := s.decryptPass chunk rest
        BlockDecryptionStream.decryptLoop fuel r.1 (bytesRead + r.2)
    else (s, bytesRead)

/-- `BlockDecryptionStream::Decrypt` (lines 291-327): reset the plaintext
cursors, run the pull loop, and succeed exactly when `bytesRead > 0`.  The
fuel `sourceBytes + 1` covers every iteration a well-behaved (nonempty-span)
source can cause, since each iteration consumes at least one source byte. -/
def BlockDecryptionStream.Decrypt (s : BlockDecryptionStream) :
    BlockDecryptionStream × Bool :=
  let r := BlockDecryptionStream.decryptLoop (sourceBytes s.source + 1)
    { s with readPos := 0, readEnd := 0 } 0
  (r.1, 0 < r.2)

/-- `BlockDecryptionStream::NextRead` (lines 231-249). -/
def BlockDecryptionStream.NextRead (s : BlockDecryptionStream) :
    BlockDecryptionStream × Option (List Nat) :=
  let r := if s.GetAvailableRead = 0 then s.Decrypt else (s, true)
  if r.2 then
    (r.1, some ((r.1.buffer.drop r.1.readPos).take r.1.GetAvailableRead))
  else (r.1, none)

/-- `BlockDecryptionStream::Flush` (lines 264-289): transform the withheld
bytes into the plaintext window at `m_readEnd`, read the final byte as the
padding length, shrink read-end by it when it is at most the block size and
otherwise report fatal corruption (`TWN_BUG`) leaving read-end extended;
reset the ciphertext buffer either way.  The `Bool` is `false` when either
`TWN_REQUIRE` or the `TWN_BUG` fired.  The second `TWN_REQUIRE` compares
`bytesToRead` with `4096 - (m_buffer - m_readEnd)`, i.e. `4096 + readEnd`,
reproduced here as written in the source. -/
def BlockDecryptionStream.Flush (s : BlockDecryptionStream) :
    BlockDecryptionStream × Bool :=
  let bytesToRead := s.GetUsedWrite
  let req1 := bytesToRead % s.blockSize = 0
  let req2 := bytesToRead ≤ capacity + s.readEnd
  let co := SSLCrypto.Cipher s.crypto (s.encrypedBuffer.take bytesToRead)
  if 0 < co.1.length then
    let pbuf := writeAt s.buffer s.readEnd co.1
    let readEnd' := s.readEnd + co.1.length
    let numPaddedBytes := pbuf.getD (readEnd' - 1) 0
    if numPaddedBytes ≤ s.blockSize then
      ({ s with crypto := co.2, buffer := pbuf, readEnd := readEnd' - numPaddedBytes,
                writePos := 0 }, decide req1 && decide req2)
    else
      ({ s with crypto := co.2, buffer := pbuf, readEnd := readEnd',
                writePos := 0 }, false)
  else
    ({ s with crypto := co.2, writePos := 0 }, decide req1 && decide req2)

/-! ## End-to-end drivers for the round-trip property (§8) -/

/-- Encrypt a sequence of application writes: fresh adapter, `Init`, one
`AdvanceWrite` per chunk, one final `Flush`.  The produced ciphertext is the
`out` field of the result. -/
def encryptAll (tf : List Nat → List Nat) (keySize : Nat)
    (chunks : List (List Nat)) : BlockEncryptionStream :=
  (BlockEncryptionStream.Flush
    (chunks.foldl (fun s c => (s.AdvanceWrite c).1)
      (BlockEncryptionStream.new.Init tf keySize))).1

/-- Drain a block decryptor: `NextRead`, consume the whole span with
`AdvanceRead`, repeat until `NextRead` reports no data. -/
def readAll (fuel : Nat) (s : BlockDecryptionStream) (acc : List Nat) :
    BlockDecryptionStream × List Nat :=
  match fuel with
  | 0 => (s, acc)
  | fuel + 1 =>
    match s.NextRead with
    | (s', none) => (s', acc)
    | (s', some span) =>
      readAll fuel (s'.AdvanceRead span.length).1 (acc ++ span)

/-- Decrypt a whole stream: fresh adapter over the ciphertext source, `Init`,
`NextRead`/`AdvanceRead` until exhausted, then `Flush`; the plaintext is what
the reads served plus the span the flush exposed. -/
def decryptAll (tf : List Nat → List Nat) (keySize : Nat) (src : Source) :
    List Nat :=
  let s0 := (BlockDecryptionStream.new src).Init tf keySize
  let r := readAll (sourceBytes src + 1) s0 []
  let s2 := (r.1.Flush).1
  r.2 ++ ((s2.buffer.drop s2.readPos).take s2.GetAvailableRead)

/-! ## Window lemmas -/

theorem writeAt_length (buf : List Nat) (pos : Nat) (data : List Nat)
    (h : pos + data.length ≤ buf.length) :
    (writeAt buf pos data).length = buf.length := by
  simp only [writeAt, List.length_append, List.length_take, List.length_drop]
  omega

theorem writeAt_take_prefix (buf : List Nat) (pos : Nat) (data : List Nat)
    (h : pos ≤ buf.length) :
    (writeAt buf pos data).take pos = buf.take pos := by
  have hm : min pos buf.length = pos := Nat.min_eq_left h
  simp [writeAt, List.take_append_eq_append_take, List.take_take, List.length_take, hm]

theorem writeAt_drop_within (buf : List Nat) (pos : Nat) (data : List Nat)
    (h : pos ≤ buf.length) :
    (writeAt buf pos data).drop pos = data ++ buf.drop (pos + data.length) := by
  have hm : min pos buf.length = pos := Nat.min_eq_left h
  simp [writeAt, List.drop_append_eq_append_drop, List.length_take, hm]

theorem writeAt_segment (buf : List Nat) (pos : Nat) (data : List Nat)
    (h : pos ≤ buf.length) :
    ((writeAt buf pos data).drop pos).take data.length = data := by
  rw [writeAt_drop_within buf pos data h, List.take_left]

theorem writeAt_take_concat (buf : List Nat) (pos : Nat) (data : List Nat)
    (h : pos ≤ buf.length) :
    (writeAt buf pos data).take (pos + data.length) = buf.take pos ++ data := by
  have h1 : (writeAt buf pos data).take (pos + data.length)
      = ((buf.take pos ++ data) ++ buf.drop (pos + data.length)).take
          (buf.take pos ++ data).length := by
    rw [writeAt]
    congr 1
    simp [List.length_take]
    omega
  rw [h1, List.take_left]

theorem writeAt_drop_suffix (buf : List Nat) (pos : Nat) (data : List Nat)
    (h : pos ≤ buf.length) :
    (writeAt buf pos data).drop (pos + data.length) = buf.drop (pos + data.length) := by
  have h1 : (writeAt buf pos data).drop (pos + data.length)
      = ((writeAt buf pos data).drop pos).drop data.length :=
    (List.drop_drop data.length pos _).symm
  rw [h1, writeAt_drop_within buf pos data h, List.drop_left]

theorem writeAt_getD (buf : List Nat) (pos : Nat) (data : List Nat) (k : Nat)
    (h : pos ≤ buf.length) (hk : k < data.length) :
    (writeAt buf pos data).getD (pos + k) 0 = data.getD k 0 := by
  have h1 : (writeAt buf pos data).getD (pos + k) 0
      = ((writeAt buf pos data).drop pos).getD k 0 := by
    simp [List.getD, List.getElem?_drop]
  rw [h1, writeAt_drop_within buf pos data h]
  simp [List.getD, List.getElem?_append_left hk]

theorem writeAt_zero (buf data : List Nat) :
    writeAt buf 0 data = data ++ buf.drop data.length := by
  simp [writeAt]

theorem writeAt_zero_take (buf data : List Nat) :
    (writeAt buf 0 data).take data.length = data := by
  rw [writeAt_zero, List.take_left]

theorem writeAt_zero_take_of (buf data : List Nat) (n : Nat)
    (h : data.length = n) : (writeAt buf 0 data).take n = data := by
  subst h
  exact writeAt_zero_take buf data

/-- Length of the padding trailer is the padding length (for positive pads). -/
theorem padTrailer_length (p : Nat) (h : 1 ≤ p) : (padTrailer p).length = p := by
  simp [padTrailer]
  omega

/-- The identity transform: the simplest cipher satisfying the §6 contract,
used to instantiate witnesses. -/
def idTf : List Nat → List Nat := fun xs => xs

theorem idTf_lenPres : LenPres idTf := fun _ => rfl

theorem idTf_causal : Causal idTf := fun xs ys => List.take_left xs ys

theorem idTf_inverse : ∀ xs, idTf (idTf xs) = xs := fun _ => rfl

/-- A small stream decryptor with two readable bytes, for witnesses. -/
def sampleDS : DecryptionStream := { DecryptionStream.new [] with readEnd := 2 }

/-- A small block decryptor with two readable bytes, for witnesses. -/
def sampleBDS : BlockDecryptionStream :=
  { BlockDecryptionStream.new [] with readEnd := 2 }

/-! ## Claim theorems -/

/-- C9: `BlockEncryptionStream::Init` and `BlockDecryptionStream::Init` set
the block size used by all subsequent alignment, carry-over, and padding
arithmetic to the `keySize` argument (`m_blockSize =
static_cast<int>(keySize)`), not to an independently supplied cipher block
size. -/
theorem init_blockSize_eq_keySize (s : BlockEncryptionStream)
    (t : BlockDecryptionStream) (tf tg : List Nat → List Nat) (keySize : Nat) :
    (s.Init tf keySize).blockSize = keySize ∧
    (t.Init tg keySize).blockSize = keySize :=
  ⟨rfl, rfl⟩

/-- C8: `AdvanceRead(n)` on either decryptor advances the read position by
exactly `n` and succeeds when `n ≤ available`, and fails without mutating any
state when `n > available`. -/
theorem advanceRead_contract (s : DecryptionStream) (t : BlockDecryptionStream)
    (n m : Nat) :
    (n ≤ s.GetAvailableRead →
      (s.AdvanceRead n).1 = { s with readPos := s.readPos + n } ∧
      (s.AdvanceRead n).2 = true) ∧
    (s.GetAvailableRead < n →
      (s.AdvanceRead n).1 = s ∧ (s.AdvanceRead n).2 = false) ∧
    (m ≤ t.GetAvailableRead →
      (t.AdvanceRead m).1 = { t with readPos := t.readPos + m } ∧
      (t.AdvanceRead m).2 = true) ∧
    (t.GetAvailableRead < m →
      (t.AdvanceRead m).1 = t ∧ (t.AdvanceRead m).2 = false) := by
  refine ⟨fun h => ?_, fun h => ?_, fun h => ?_, fun h => ?_⟩
  · simp [DecryptionStream.AdvanceRead, h]
  · simp [DecryptionStream.AdvanceRead, Nat.not_le.mpr h]
  · simp [BlockDecryptionStream.AdvanceRead, h]
  · simp [BlockDecryptionStream.AdvanceRead, Nat.not_le.mpr h]

/-- Witness for C8 at a concrete state with two available bytes. -/
theorem advanceRead_contract_witness :
    ((sampleDS.AdvanceRead 1).1 = { sampleDS with readPos := sampleDS.readPos + 1 } ∧
      (sampleDS.AdvanceRead 1).2 = true) ∧
    ((sampleDS.AdvanceRead 3).1 = sampleDS ∧ (sampleDS.AdvanceRead 3).2 = false) ∧
    ((sampleBDS.AdvanceRead 1).1 = { sampleBDS with readPos := sampleBDS.readPos + 1 } ∧
      (sampleBDS.AdvanceRead 1).2 = true) ∧
    ((sampleBDS.AdvanceRead 3).1 = sampleBDS ∧ (sampleBDS.AdvanceRead 3).2 = false) :=
  ⟨(advanceRead_contract sampleDS sampleBDS 1 1).1 (by decide),
   (advanceRead_contract sampleDS sampleBDS 3 3).2.1 (by decide),
   (advanceRead_contract sampleDS sampleBDS 1 1).2.2.1 (by decide),
   (advanceRead_contract sampleDS sampleBDS 3 3).2.2.2 (by decide)⟩

/-- C4 (amended): for every `dataLen` and block size `B ≥ 1`, the padding has
length `padLen = B - dataLen % B`, which is never zero and is a full block
when `dataLen % B = 0`; provided `dataLen + padLen < 4096` (otherwise `Pad`
fails fatally and appends nothing) its content is `padLen - 1` zero bytes
followed by one byte equal to `padLen % 256` — equal to `padLen` itself
exactly when `padLen ≤ 255`. -/
theorem pad_spec (blockSize dataLen : Nat) (buffer : List Nat)
    (hB : 1 ≤ blockSize) (hbuf : buffer.length = capacity)
    (hfit : dataLen + (blockSize - dataLen % blockSize) < capacity) :
    (Pad blockSize buffer capacity dataLen).2.1 = blockSize - dataLen % blockSize ∧
    1 ≤ blockSize - dataLen % blockSize ∧
    (dataLen % blockSize = 0 → blockSize - dataLen % blockSize = blockSize) ∧
    (Pad blockSize buffer capacity dataLen).2.2 = true ∧
    ((Pad blockSize buffer capacity dataLen).1.drop dataLen).take
        (blockSize - dataLen % blockSize)
      = List.replicate (blockSize - dataLen % blockSize - 1) 0
        ++ [(blockSize - dataLen % blockSize) % 256] := by
  have hlt : dataLen % blockSize < blockSize := Nat.mod_lt _ hB
  have hp : 1 ≤ blockSize - dataLen % blockSize := by omega
  have hdl : dataLen ≤ buffer.length := by omega
  unfold Pad
  rw [if_pos hfit]
  refine ⟨rfl, hp, fun h => by omega, rfl, ?_⟩
  have hseg := writeAt_segment buffer dataLen
    (padTrailer (blockSize - dataLen % blockSize)) hdl
  rw [padTrailer_length _ hp] at hseg
  rw [hseg]
  rfl

/-- Witness for C4 at block size 16 and four accumulated bytes: twelve bytes
of padding, eleven zeros then the byte 12. -/
theorem pad_spec_witness :
    1 ≤ (16 : Nat) ∧ (List.replicate capacity (0 : Nat)).length = capacity ∧
    4 + (16 - 4 % 16) < capacity ∧
    ((Pad 16 (List.replicate capacity 0) capacity 4).2.1 = 16 - 4 % 16 ∧
      1 ≤ 16 - 4 % 16 ∧
      (4 % 16 = 0 → 16 - 4 % 16 = 16) ∧
      (Pad 16 (List.replicate capacity 0) capacity 4).2.2 = true ∧
      ((Pad 16 (List.replicate capacity 0) capacity 4).1.drop 4).take (16 - 4 % 16)
        = List.replicate (16 - 4 % 16 - 1) 0 ++ [(16 - 4 % 16) % 256]) :=
  ⟨by decide, by simp, by decide,
    pad_spec 16 4 (List.replicate capacity 0) (by decide) (by simp) (by decide)⟩

/-- The bytes `BlockDecryptionStream::Flush` decrypts out of the withheld
ciphertext (derived notion, used to state the flush theorems). -/
def flushCo (s : BlockDecryptionStream) : List Nat :=
  (s.crypto.Cipher (s.encrypedBuffer.take s.writePos)).1

/-- The padding-length byte `Flush` reads: the last byte of the newly
decrypted tail (derived notion). -/
def flushPadByte (s : BlockDecryptionStream) : Nat :=
  (flushCo s).getD ((flushCo s).length - 1) 0

/-- Under the cipher length contract, the flush transform produces exactly the
withheld byte count. -/
theorem flushCo_length (s : BlockDecryptionStream) (hlen : LenPres s.crypto.tf)
    (henc : s.encrypedBuffer.length = capacity) (hwle : s.writePos ≤ capacity) :
    (flushCo s).length = s.writePos := by
  have hchunk : (s.encrypedBuffer.take s.writePos).length = s.writePos := by
    simp [List.length_take]
    omega
  simp only [flushCo, SSLCrypto.Cipher, List.length_drop]
  rw [hlen, List.length_append, hchunk]
  omega

/-- Behaviour of `BlockDecryptionStream::Flush` from any state with withheld
bytes, under the §6 cipher length contract: the ciphertext buffer is always
reset; the decrypted tail lands at `m_readEnd`; the final byte decides
between shrinking read-end and the fatal corruption report. -/
theorem flush_spec (s : BlockDecryptionStream)
    (hlen : LenPres s.crypto.tf)
    (hbuf : s.buffer.length = capacity)
    (henc : s.encrypedBuffer.length = capacity)
    (hpos : 0 < s.writePos)
    (hle : s.readEnd + s.writePos ≤ capacity) :
    (s.Flush).1.writePos = 0 ∧
    (s.Flush).1.buffer = writeAt s.buffer s.readEnd (flushCo s) ∧
    (s.Flush).1.readPos = s.readPos ∧
    (flushPadByte s ≤ s.blockSize →
      (s.Flush).1.readEnd = s.readEnd + s.writePos - flushPadByte s ∧
      (s.Flush).2 = decide (s.writePos % s.blockSize = 0)) ∧
    (s.blockSize < flushPadByte s →
      (s.Flush).1.readEnd = s.readEnd + s.writePos ∧ (s.Flush).2 = false) := by
  have hco : (flushCo s).length = s.writePos :=
    flushCo_length s hlen henc (by omega)
  have hre : s.readEnd ≤ s.buffer.length := by omega
  have hgd : (writeAt s.buffer s.readEnd (flushCo s)).getD
      (s.readEnd + (flushCo s).length - 1) 0 = flushPadByte s := by
    have h1 : s.readEnd + (flushCo s).length - 1
        = s.readEnd + ((flushCo s).length - 1) := by omega
    rw [h1, writeAt_getD s.buffer s.readEnd (flushCo s) ((flushCo s).length - 1)
      hre (by omega)]
    rfl
  have hreq2 : s.writePos ≤ capacity + s.readEnd := by omega
  simp only [BlockDecryptionStream.Flush, BlockDecryptionStream.GetUsedWrite]
  rw [show (s.crypto.Cipher (s.encrypedBuffer.take s.writePos)).1 = flushCo s from rfl]
  rw [if_pos (by omega : 0 < (flushCo s).length)]
  rw [hgd]
  refine ⟨?_, ?_, ?_, fun h => ?_, fun h => ?_⟩
  · split <;> rfl
  · split <;> rfl
  · split <;> rfl
  · rw [if_pos h]
    refine ⟨by rw [hco], ?_⟩
    simp [hreq2]
  · rw [if_neg (by omega)]
    exact ⟨by rw [hco], rfl⟩

/-- C3: when the buffered ciphertext is a whole (positive) number of blocks
and the decrypted final block's padding-length byte `v` exceeds the block
size, `Flush` reports unrecoverable corruption (`TWN_BUG`, a fatal result)
and read-end is not shrunk — no successful result exposes the block as data;
when `v ≤ blockSize`, `Flush` succeeds, shrinks read-end by exactly `v`
bytes, and resets the ciphertext buffer to empty. -/
theorem flush_corruption_check (s : BlockDecryptionStream) (v : Nat)
    (hlen : LenPres s.crypto.tf)
    (hbuf : s.buffer.length = capacity)
    (henc : s.encrypedBuffer.length = capacity)
    (hwhole : s.writePos % s.blockSize = 0)
    (hpos : 0 < s.writePos)
    (hle : s.readEnd + s.writePos ≤ capacity)
    (hv : flushPadByte s = v) :
    (s.blockSize < v →
      (s.Flush).2 = false ∧
      (s.Flush).1.readEnd = s.readEnd + s.writePos ∧
      (s.Flush).1.writePos = 0) ∧
    (v ≤ s.blockSize →
      (s.Flush).2 = true ∧
      (s.Flush).1.readEnd = s.readEnd + s.writePos - v ∧
      (s.Flush).1.writePos = 0) := by
  obtain ⟨hw0, _, _, hgood, hbad⟩ := flush_spec s hlen hbuf henc hpos hle
  subst hv
  constructor
  · intro h
    obtain ⟨h1, h2⟩ := hbad h
    exact ⟨h2, h1, hw0⟩
  · intro h
    obtain ⟨h1, h2⟩ := hgood h
    refine ⟨?_, h1, hw0⟩
    rw [h2]
    simp [hwhole]

/-- A block decryptor (B = 1, identity cipher) holding one withheld
ciphertext byte `b`, for the flush witnesses. -/
def sampleFlush (b : Nat) : BlockDecryptionStream :=
  { (BlockDecryptionStream.new []).Init idTf 1 with
    encrypedBuffer := writeAt (List.replicate capacity 0) 0 [b], writePos := 1 }

theorem sampleFlush_buffer_length (b : Nat) :
    (sampleFlush b).buffer.length = capacity := by
  simp [sampleFlush, BlockDecryptionStream.Init, BlockDecryptionStream.new]

theorem sampleFlush_enc_length (b : Nat) :
    (sampleFlush b).encrypedBuffer.length = capacity := by
  have h : (sampleFlush b).encrypedBuffer
      = writeAt (List.replicate capacity 0) 0 [b] := rfl
  rw [h, writeAt_length _ _ _ (by
    simp only [List.length_replicate, List.length_cons, List.length_nil, capacity]
    omega)]
  simp

/-- Witness for C3: with block size 1, a withheld block decrypting to the
byte 2 makes `Flush` fail fatally without shrinking read-end, while a
withheld block decrypting to the byte 1 is accepted and stripped. -/
theorem flush_corruption_check_witness :
    (((sampleFlush 2).Flush).2 = false ∧
      ((sampleFlush 2).Flush).1.readEnd = (sampleFlush 2).readEnd + (sampleFlush 2).writePos ∧
      ((sampleFlush 2).Flush).1.writePos = 0) ∧
    (((sampleFlush 1).Flush).2 = true ∧
      ((sampleFlush 1).Flush).1.readEnd
        = (sampleFlush 1).readEnd + (sampleFlush 1).writePos - 1 ∧
      ((sampleFlush 1).Flush).1.writePos = 0) :=
  ⟨(flush_corruption_check (sampleFlush 2) 2 idTf_lenPres
      (sampleFlush_buffer_length 2) (sampleFlush_enc_length 2)
      (by decide) (by decide) (by decide) (by decide)).1 (by decide),
   (flush_corruption_check (sampleFlush 1) 1 idTf_lenPres
      (sampleFlush_buffer_length 1) (sampleFlush_enc_length 1)
      (by decide) (by decide) (by decide) (by decide)).2 (by decide)⟩

/-- C10: a decrypted final block whose padding-length byte is 0 passes the
`numPaddedBytes <= m_blockSize` check, `Flush` succeeds, shrinks read-end by
zero bytes, and the exposed plaintext window contains the entire final block
including the zero byte — even though the encryptor's padding is never
zero-length (`pad_spec` proves `1 ≤ padLen`). -/
theorem flush_accepts_zero_pad (s : BlockDecryptionStream)
    (hlen : LenPres s.crypto.tf)
    (hbuf : s.buffer.length = capacity)
    (henc : s.encrypedBuffer.length = capacity)
    (hwhole : s.writePos % s.blockSize = 0)
    (hpos : 0 < s.writePos)
    (hle : s.readEnd + s.writePos ≤ capacity)
    (hzero : flushPadByte s = 0) :
    (s.Flush).2 = true ∧
    (s.Flush).1.readEnd = s.readEnd + s.writePos ∧
    (s.Flush).1.writePos = 0 ∧
    (((s.Flush).1.buffer.drop s.readEnd).take s.writePos = flushCo s) := by
  obtain ⟨hw0, hbufeq, _, hgood, _⟩ := flush_spec s hlen hbuf henc hpos hle
  have hco : (flushCo s).length = s.writePos := flushCo_length s hlen henc (by omega)
  obtain ⟨h1, h2⟩ := hgood (by omega)
  refine ⟨by rw [h2]; simp [hwhole], by rw [h1, hzero]; omega, hw0, ?_⟩
  · rw [hbufeq, ← hco]
    exact writeAt_segment s.buffer s.readEnd (flushCo s) (by omega)

/-- Witness for C10: with block size 1, a withheld block decrypting to the
byte 0 is accepted and fully exposed. -/
theorem flush_accepts_zero_pad_witness :
    (((sampleFlush 0).Flush).2 = true ∧
      ((sampleFlush 0).Flush).1.readEnd
        = (sampleFlush 0).readEnd + (sampleFlush 0).writePos ∧
      ((sampleFlush 0).Flush).1.writePos = 0 ∧
      ((((sampleFlush 0).Flush).1.buffer.drop (sampleFlush 0).readEnd).take
          (sampleFlush 0).writePos = flushCo (sampleFlush 0))) :=
  flush_accepts_zero_pad (sampleFlush 0) idTf_lenPres
    (sampleFlush_buffer_length 0) (sampleFlush_enc_length 0)
    (by decide) (by decide) (by decide) (by decide)

set_option maxRecDepth 4000 in
/-- C4 fails as frozen: it quantifies over every block size `B > 0`, but at
`B = 256` and `dataLen = 0` the computed padding length is 256 while the
written padding-length byte is `static_cast<uint8_t>(256) = 0`, so the
content is 255 zero bytes followed by the byte 0, not by a byte whose value
equals `padLen`. -/
theorem pad_byte_wraps_counterexample :
    (Pad 256 (List.replicate capacity 0) capacity 0).2.1 = 256 ∧
    ((Pad 256 (List.replicate capacity 0) capacity 0).1.drop 0).take 256
      = List.replicate 255 0 ++ [0] ∧
    ¬ (List.replicate 255 (0 : Nat) ++ [0] = List.replicate 255 0 ++ [256]) := by
  refine ⟨by decide, by decide, by decide⟩

/-- C5: `AdvanceWrite` with `total = n + currentlyAccumulated`: below block
size the write cursor advances by `n`, nothing is transformed (cipher history
unchanged) or forwarded (sink output unchanged), and the call succeeds; at or
above block size exactly `alignedBytes = total - total % blockSize` bytes are
transformed from the accumulation buffer into the output buffer and forwarded
to the sink, the last `remainder = total % blockSize` bytes are copied to the
buffer's front, and the write cursor is reset to the remainder. -/
theorem advanceWrite_spec (s : BlockEncryptionStream) (data : List Nat)
    (hB : 1 ≤ s.blockSize) (hlen : LenPres s.crypto.tf)
    (hbuf : s.buffer.length = capacity)
    (hfit : s.writePos + data.length ≤ capacity) :
    (data.length + s.writePos < s.blockSize →
      (s.AdvanceWrite data).1.writePos = s.writePos + data.length ∧
      (s.AdvanceWrite data).1.out = s.out ∧
      (s.AdvanceWrite data).1.crypto.hist = s.crypto.hist ∧
      (s.AdvanceWrite data).2 = true) ∧
    (s.blockSize ≤ data.length + s.writePos →
      (s.AdvanceWrite data).1.writePos = (data.length + s.writePos) % s.blockSize ∧
      (s.AdvanceWrite data).1.crypto.hist
        = s.crypto.hist ++ (writeAt s.buffer s.writePos data).take
            (data.length + s.writePos - (data.length + s.writePos) % s.blockSize) ∧
      (s.AdvanceWrite data).1.out
        = s.out ++ (s.crypto.tf (s.crypto.hist
            ++ (writeAt s.buffer s.writePos data).take
              (data.length + s.writePos
                - (data.length + s.writePos) % s.blockSize))).drop
            s.crypto.hist.length ∧
      (s.AdvanceWrite data).1.out.length
        = s.out.length + (data.length + s.writePos
            - (data.length + s.writePos) % s.blockSize) ∧
      (s.AdvanceWrite data).1.buffer.take ((data.length + s.writePos) % s.blockSize)
        = ((writeAt s.buffer s.writePos data).drop
              (data.length + s.writePos
                - (data.length + s.writePos) % s.blockSize)).take
            ((data.length + s.writePos) % s.blockSize) ∧
      (s.AdvanceWrite data).2 = true) := by
  have hblen : (writeAt s.buffer s.writePos data).length = capacity :=
    (writeAt_length s.buffer s.writePos data (by rw [hbuf]; exact hfit)).trans hbuf
  have hmodle : (data.length + s.writePos) % s.blockSize ≤ data.length + s.writePos :=
    Nat.mod_le _ _
  constructor
  · intro h
    have hn : ¬ s.blockSize ≤ data.length + s.writePos := by omega
    unfold BlockEncryptionStream.AdvanceWrite BlockEncryptionStream.advance
    simp only [BlockEncryptionStream.GetAvailableRead]
    rw [if_neg hn]
    exact ⟨Nat.add_comm data.length s.writePos, rfl, rfl, rfl⟩
  · intro h
    unfold BlockEncryptionStream.AdvanceWrite BlockEncryptionStream.advance
    simp only [BlockEncryptionStream.GetAvailableRead]
    rw [if_pos h]
    dsimp only
    rw [show data.length + s.writePos - (data.length + s.writePos
          - (data.length + s.writePos) % s.blockSize)
        = (data.length + s.writePos) % s.blockSize from by omega]
    rw [writeAt_zero_take]
    have hco1 : (s.crypto.Cipher ((writeAt s.buffer s.writePos data).take
          (data.length + s.writePos
            - (data.length + s.writePos) % s.blockSize))).1.length
        = data.length + s.writePos - (data.length + s.writePos) % s.blockSize := by
      simp only [SSLCrypto.Cipher]
      rw [List.length_drop, hlen, List.length_append, List.length_take, hblen]
      omega
    have hslice : (((writeAt s.buffer s.writePos data).drop
          (data.length + s.writePos - (data.length + s.writePos) % s.blockSize)).take
          ((data.length + s.writePos) % s.blockSize)).length
        = (data.length + s.writePos) % s.blockSize := by
      simp only [List.length_take, List.length_drop, hblen]
      omega
    refine ⟨rfl, rfl, rfl, ?_, ?_, rfl⟩
    · rw [List.length_append, hco1]
    · calc ((writeAt (writeAt s.buffer s.writePos data) 0
            (((writeAt s.buffer s.writePos data).drop
              (data.length + s.writePos
                - (data.length + s.writePos) % s.blockSize)).take
              ((data.length + s.writePos) % s.blockSize))).take
            ((data.length + s.writePos) % s.blockSize))
          = ((writeAt (writeAt s.buffer s.writePos data) 0
            (((writeAt s.buffer s.writePos data).drop
              (data.length + s.writePos
                - (data.length + s.writePos) % s.blockSize)).take
              ((data.length + s.writePos) % s.blockSize))).take
            (((writeAt s.buffer s.writePos data).drop
              (data.length + s.writePos
                - (data.length + s.writePos) % s.blockSize)).take
              ((data.length + s.writePos) % s.blockSize)).length) := by
            rw [hslice]
        _ = ((writeAt s.buffer s.writePos data).drop
              (data.length + s.writePos
                - (data.length + s.writePos) % s.blockSize)).take
              ((data.length + s.writePos) % s.blockSize) := writeAt_zero_take _ _

/-- The 20-byte plaintext of the concrete scenario in §8. -/
def pt20 : List Nat :=
  [1, 2, 3, 4, 5, 6, 7, 8, 9, 10, 11, 12, 13, 14, 15, 16, 17, 18, 19, 20]

/-- A fresh block encryptor with block size 16 over the identity cipher. -/
def sampleEnc16 : BlockEncryptionStream := BlockEncryptionStream.new.Init idTf 16

/-- Witness for C5, including the concrete scenario: `B = 16`, 20 plaintext
bytes — the first `AdvanceWrite` transforms and forwards 16 bytes and retains
4; `Flush` appends 11 zero bytes and a byte of value 12; the total ciphertext
is 32 bytes. -/
theorem advanceWrite_spec_witness :
    (sampleEnc16.AdvanceWrite pt20).2 = true ∧
    (sampleEnc16.AdvanceWrite pt20).1.out.length = 16 ∧
    (sampleEnc16.AdvanceWrite pt20).1.writePos = 4 ∧
    (encryptAll idTf 16 [pt20]).out
      = pt20 ++ (List.replicate 11 0 ++ [12]) ∧
    (encryptAll idTf 16 [pt20]).out.length = 32 :=
  ⟨((advanceWrite_spec sampleEnc16 pt20 (by decide) idTf_lenPres
      (by simp [sampleEnc16, BlockEncryptionStream.Init, BlockEncryptionStream.new])
      (by decide)).2 (by decide)).2.2.2.2.2,
   by decide, by decide, by decide, by decide⟩

/-- One decrypt pass leaves the withheld ciphertext tail strictly shorter
than two blocks. -/
theorem decryptPass_writePos_lt (s : BlockDecryptionStream) (chunk : List Nat)
    (rest : Source) (hB : 1 ≤ s.blockSize) :
    (s.decryptPass chunk rest).1.writePos < 2 * s.blockSize := by
  have hm := Nat.mod_lt (s.writePos + min s.GetAvailableWrite chunk.length)
    (show 0 < s.blockSize from hB)
  unfold BlockDecryptionStream.decryptPass
  dsimp only
  split
  · dsimp only
    omega
  · dsimp only
    rename_i hng
    omega

/-- A decrypt pass does not change the block size. -/
theorem decryptPass_blockSize (s : BlockDecryptionStream) (chunk : List Nat)
    (rest : Source) :
    (s.decryptPass chunk rest).1.blockSize = s.blockSize := by
  unfold BlockDecryptionStream.decryptPass
  dsimp only
  split <;> rfl

/-- The withheld-tail bound holds on exit from the decrypt loop for any fuel,
i.e. after any number of passes. -/
theorem decryptLoop_writePos_lt (fuel : Nat) (s : BlockDecryptionStream)
    (acc : Nat) (hB : 1 ≤ s.blockSize) (hw : s.writePos < 2 * s.blockSize) :
    (BlockDecryptionStream.decryptLoop fuel s acc).1.writePos
      < 2 * s.blockSize := by
  induction fuel generalizing s acc with
  | zero => exact hw
  | succ n ih =>
    unfold BlockDecryptionStream.decryptLoop
    split
    · match hsrc : s.source with
      | [] => exact hw
      | chunk :: rest =>
        have h1 := decryptPass_blockSize s chunk rest
        have h2 := decryptPass_writePos_lt s chunk rest hB
        have h3 := ih (s.decryptPass chunk rest).1 (acc + (s.decryptPass chunk rest).2)
          (by omega) (by omega)
        rw [h1] at h3
        exact h3
    · exact hw

/-- C7 (amended): after every pass of the `Decrypt` loop the withheld (not
yet transformed) tail of the ciphertext accumulation buffer is strictly
shorter than TWICE the block size (the code deliberately withholds up to a
full block plus a partial block; the frozen bound `< blockSize` fails, see
the counterexample).  An arbitrary `fuel` truncates the loop after any number
of passes, so the bound holds after every pass; the second conjunct is the
bound at `Decrypt`'s exit. -/
theorem withheld_bound (s : BlockDecryptionStream) (hB : 1 ≤ s.blockSize)
    (hw : s.writePos < 2 * s.blockSize) :
    (∀ fuel acc, (BlockDecryptionStream.decryptLoop fuel s acc).1.writePos
        < 2 * s.blockSize) ∧
    (s.Decrypt).1.writePos < 2 * s.blockSize := by
  refine ⟨fun fuel acc => decryptLoop_writePos_lt fuel s acc hB hw, ?_⟩
  exact decryptLoop_writePos_lt _ { s with readPos := 0, readEnd := 0 } 0 hB hw

/-- Witness for C7 (amended) at a concrete one-block source. -/
theorem withheld_bound_witness :
    (((BlockDecryptionStream.new [[5]]).Init idTf 1).Decrypt).1.writePos
      < 2 * ((BlockDecryptionStream.new [[5]]).Init idTf 1).blockSize :=
  (withheld_bound (((BlockDecryptionStream.new [[5]]).Init idTf 1))
    (by decide) (by decide)).2

/-- C7 fails as frozen: with block size 1 and a source serving `[5, 6]` and
then `[7]`, the first decrypt pass transforms one block and withholds exactly
one full block — `writePos = 1 = blockSize`, not `< blockSize` — while more
source data remains, so this state is not "immediately before `Flush`". -/
theorem withheld_counterexample :
    ((((BlockDecryptionStream.new [[5, 6], [7]]).Init idTf 1).Decrypt).1.writePos
      = 1) ∧
    ((((BlockDecryptionStream.new [[5, 6], [7]]).Init idTf 1).Decrypt).1.blockSize
      = 1) ∧
    ((((BlockDecryptionStream.new [[5, 6], [7]]).Init idTf 1).Decrypt).1.source
      = [[7]]) :=
  ⟨by decide, by decide, by decide⟩

/-- Consuming `n ≤ length of the current span` bytes removes exactly `n`
bytes from the source. -/
theorem sourceAdvance_bytes (chunk : List Nat) (rest : Source) (n : Nat)
    (h : n ≤ chunk.length) :
    sourceBytes (sourceAdvance (chunk :: rest) n)
      = sourceBytes (chunk :: rest) - n := by
  simp only [sourceAdvance]
  split
  · simp only [sourceBytes, List.map_cons, List.sum_cons, List.length_drop]
    omega
  · rename_i hn
    simp only [sourceBytes, List.map_cons, List.sum_cons]
    omega

/-- A decrypt pass reports as consumed exactly the bytes that left the
source. -/
theorem decryptPass_consumed (s : BlockDecryptionStream) (chunk : List Nat)
    (rest : Source) :
    (s.decryptPass chunk rest).2 ≤ sourceBytes (chunk :: rest) ∧
    sourceBytes (s.decryptPass chunk rest).1.source
      = sourceBytes (chunk :: rest) - (s.decryptPass chunk rest).2 := by
  have hmin : min s.GetAvailableWrite chunk.length ≤ chunk.length :=
    Nat.min_le_right _ _
  have hb : chunk.length ≤ sourceBytes (chunk :: rest) := by
    simp [sourceBytes]
  have hs := sourceAdvance_bytes chunk rest (min s.GetAvailableWrite chunk.length) hmin
  unfold BlockDecryptionStream.decryptPass
  dsimp only
  split
  · exact ⟨by omega, hs⟩
  · exact ⟨by omega, hs⟩

/-- Across the decrypt loop, `bytesRead` counts exactly the source bytes
consumed. -/
theorem decryptLoop_consumed (fuel : Nat) (s : BlockDecryptionStream)
    (acc : Nat) :
    (BlockDecryptionStream.decryptLoop fuel s acc).2
        + sourceBytes (BlockDecryptionStream.decryptLoop fuel s acc).1.source
      = acc + sourceBytes s.source ∧
    acc ≤ (BlockDecryptionStream.decryptLoop fuel s acc).2 := by
  induction fuel generalizing s acc with
  | zero => exact ⟨rfl, Nat.le_refl acc⟩
  | succ n ih =>
    unfold BlockDecryptionStream.decryptLoop
    split
    · rcases hsrc : s.source with _ | ⟨chunk, rest⟩
      · constructor
        · simp [hsrc]
        · exact Nat.le_refl acc
      · obtain ⟨hc1, hc2⟩ := decryptPass_consumed s chunk rest
        obtain ⟨ih1, ih2⟩ := ih (s.decryptPass chunk rest).1
          (acc + (s.decryptPass chunk rest).2)
        dsimp only
        constructor
        · rw [ih1, hc2]
          omega
        · omega
    · exact ⟨rfl, Nat.le_refl acc⟩

/-- C6 (amended): `Decrypt` succeeds exactly when it consumed ciphertext
bytes from the source this call (the loop counts source bytes pulled, not
plaintext bytes produced — see the counterexample for the frozen wording);
and when the source has no more data it is surfaced to the immediate caller
as "no data": `Decrypt` fails, hence `NextRead` (on an empty window) returns
failure rather than success with an empty span. -/
theorem decrypt_success_iff_consumed (s : BlockDecryptionStream) :
    ((s.Decrypt).2 = true ↔
      sourceBytes (s.Decrypt).1.source < sourceBytes s.source) ∧
    (s.source = [] →
      (s.Decrypt).2 = false ∧
      (s.GetAvailableRead = 0 → (s.NextRead).2 = none)) := by
  obtain ⟨h1, _⟩ := decryptLoop_consumed (sourceBytes s.source + 1)
    { s with readPos := 0, readEnd := 0 } 0
  constructor
  · simp only [BlockDecryptionStream.Decrypt, decide_eq_true_eq]
    dsimp only at h1 ⊢
    omega
  · intro hsrc
    have h2 : (s.Decrypt).2 = false := by
      simp only [BlockDecryptionStream.Decrypt, BlockDecryptionStream.decryptLoop,
        hsrc, sourceBytes, List.map_nil, List.sum_nil]
      split <;> simp
    refine ⟨h2, fun hav => ?_⟩
    simp only [BlockDecryptionStream.NextRead, hav, if_pos, h2]
    simp

/-- Witness for C6 (amended): a drained decryptor reports "no data". -/
theorem decrypt_success_iff_consumed_witness :
    ((((BlockDecryptionStream.new []).Init idTf 1).Decrypt).2 = false) ∧
    ((((BlockDecryptionStream.new []).Init idTf 1).NextRead).2 = none) :=
  ⟨((decrypt_success_iff_consumed
      ((BlockDecryptionStream.new []).Init idTf 1)).2 rfl).1,
   ((decrypt_success_iff_consumed
      ((BlockDecryptionStream.new []).Init idTf 1)).2 rfl).2 rfl⟩

/-- C6 fails as frozen: a fresh block decryptor with block size 1 over a
one-byte source consumes the byte (withholding it as the possible final
padded block), produces zero plaintext bytes, and still returns success —
so success is not equivalent to "plaintext bytes were produced". -/
theorem decrypt_success_counterexample :
    ((((BlockDecryptionStream.new [[5]]).Init idTf 1).Decrypt).2 = true) ∧
    ((((BlockDecryptionStream.new [[5]]).Init idTf 1).Decrypt).1.GetAvailableRead
      = 0) :=
  ⟨by decide, by decide⟩

/-! ## Window safety (C2) -/

/-- Cursor and window invariant of the stream-cipher decryptor (§3). -/
def DecryptionStream.WF (s : DecryptionStream) : Prop :=
  s.readPos ≤ s.readEnd ∧ s.readEnd ≤ capacity ∧ s.buffer.length = capacity

/-- Cursor and window invariant of the block encryptor. -/
def BlockEncryptionStream.WF (s : BlockEncryptionStream) : Prop :=
  s.writePos ≤ capacity ∧ s.buffer.length = capacity ∧
  s.encrypedBuffer.length = capacity

/-- Cursor and window invariant of the block decryptor; the sum bound
`readEnd + writePos ≤ capacity` is what makes the flush-time write land
inside the plaintext window. -/
def BlockDecryptionStream.WF (s : BlockDecryptionStream) : Prop :=
  s.readPos ≤ s.readEnd ∧ s.readEnd + s.writePos ≤ capacity ∧
  s.buffer.length = capacity ∧ s.encrypedBuffer.length = capacity

/-- Invariant maintained across the decrypt pull loop: plaintext cursors are
reset, and any plaintext produced in this call is at least a block (so the
loop guard stops further passes). -/
def BlockDecryptionStream.LoopWF (s : BlockDecryptionStream) : Prop :=
  s.readPos = 0 ∧ s.writePos ≤ capacity ∧ s.buffer.length = capacity ∧
  s.encrypedBuffer.length = capacity ∧
  (s.readEnd = 0 ∨ (s.blockSize ≤ s.readEnd ∧ s.readEnd + s.writePos ≤ capacity))

theorem decryptionStream_decrypt_WF (s : DecryptionStream)
    (hlen : LenPres s.crypto.tf) (hbuf : s.buffer.length = capacity) :
    (s.Decrypt).1.WF := by
  rcases hsrc : s.source with _ | ⟨chunk, rest⟩ <;>
    simp only [DecryptionStream.Decrypt, hsrc]
  · exact ⟨Nat.le_refl 0, Nat.zero_le _, hbuf⟩
  · have hlc : min capacity chunk.length ≤ capacity := Nat.min_le_left _ _
    have htl : (chunk.take (min capacity chunk.length)).length
        = min capacity chunk.length := by
      simp only [List.length_take]
      have := Nat.min_le_right capacity chunk.length
      omega
    have hbl : (writeAt s.buffer 0 (chunk.take (min capacity chunk.length))).length
        = capacity := by
      refine (writeAt_length _ _ _ ?_).trans hbuf
      rw [htl, hbuf]
      omega
    have hco : ((s.crypto.Cipher
        ((writeAt s.buffer 0 (chunk.take (min capacity chunk.length))).take
          (min capacity chunk.length))).1).length = min capacity chunk.length := by
      simp only [SSLCrypto.Cipher]
      rw [List.length_drop, hlen, List.length_append, List.length_take, hbl]
      omega
    refine ⟨Nat.zero_le _, ?_, ?_⟩
    · rw [hco]
      exact hlc
    · refine (writeAt_length _ _ _ ?_).trans hbl
      rw [hco, hbl]
      omega

theorem decryptionStream_advanceRead_WF (s : DecryptionStream) (n : Nat)
    (h : s.WF) : (s.AdvanceRead n).1.WF := by
  unfold DecryptionStream.AdvanceRead
  split
  · rename_i hle
    simp only [DecryptionStream.GetAvailableRead] at hle
    obtain ⟨h1, h2, h3⟩ := h
    exact ⟨show s.readPos + n ≤ s.readEnd by omega, h2, h3⟩
  · exact h

theorem decryptionStream_nextRead_WF (s : DecryptionStream)
    (hlen : LenPres s.crypto.tf) (h : s.WF) : (s.NextRead).1.WF := by
  by_cases hav : s.GetAvailableRead = 0 <;>
    unfold DecryptionStream.NextRead <;> dsimp only
  · rw [if_pos hav]
    split
    · exact decryptionStream_decrypt_WF s hlen h.2.2
    · exact decryptionStream_decrypt_WF s hlen h.2.2
  · rw [if_neg hav]
    split
    · exact h
    · exact h

theorem blockEnc_advance_WF (s : BlockEncryptionStream) (bytes : Nat)
    (hlen : LenPres s.crypto.tf) (h : s.WF)
    (hfit : bytes + s.writePos ≤ capacity) :
    (s.advance bytes).1.WF := by
  obtain ⟨h1, h2, h3⟩ := h
  have hml := Nat.mod_le (bytes + s.writePos) s.blockSize
  unfold BlockEncryptionStream.advance
  simp only [BlockEncryptionStream.GetAvailableRead]
  split
  · rename_i hge
    dsimp only
    have hco : (s.crypto.Cipher (s.buffer.take (bytes + s.writePos
        - (bytes + s.writePos) % s.blockSize))).1.length
        = bytes + s.writePos - (bytes + s.writePos) % s.blockSize := by
      simp only [SSLCrypto.Cipher]
      rw [List.length_drop, hlen, List.length_append, List.length_take, h2]
      omega
    refine ⟨?_, ?_, ?_⟩ <;> dsimp only
    · omega
    · refine (writeAt_length _ _ _ ?_).trans h2
      simp only [List.length_take, List.length_drop, h2]
      omega
    · refine (writeAt_length _ _ _ ?_).trans h3
      rw [hco, h3]
      omega
  · refine ⟨?_, h2, h3⟩
    dsimp only
    omega

theorem blockEnc_advanceWrite_WF (s : BlockEncryptionStream) (data : List Nat)
    (hlen : LenPres s.crypto.tf) (h : s.WF) (hfit : data.length ≤ s.NextWrite) :
    (s.AdvanceWrite data).1.WF := by
  simp only [BlockEncryptionStream.NextWrite,
    BlockEncryptionStream.GetAvailableRead] at hfit
  obtain ⟨h1, h2, h3⟩ := h
  have hb : (writeAt s.buffer s.writePos data).length = capacity :=
    (writeAt_length _ _ _ (by rw [h2]; omega)).trans h2
  exact blockEnc_advance_WF _ data.length hlen ⟨h1, hb, h3⟩ (by dsimp only; omega)

theorem blockEnc_flush_WF (s : BlockEncryptionStream)
    (hlen : LenPres s.crypto.tf) (h : s.WF) : (s.Flush).1.WF := by
  have h1 := h.1
  have h2 := h.2.1
  unfold BlockEncryptionStream.Flush Pad
  simp only [BlockEncryptionStream.GetAvailableRead]
  split
  · rename_i hfit
    dsimp only
    have htl : (padTrailer (s.blockSize - s.writePos % s.blockSize)).length
        ≤ s.blockSize - s.writePos % s.blockSize + 1 := by
      simp only [padTrailer, List.length_append, List.length_replicate,
        List.length_cons, List.length_nil]
      omega
    have hb : (writeAt s.buffer s.writePos
        (padTrailer (s.blockSize - s.writePos % s.blockSize))).length = capacity :=
      (writeAt_length _ _ _ (by rw [h2]; omega)).trans h2
    exact blockEnc_advance_WF _ _ hlen ⟨h1, hb, h.2.2⟩ (by dsimp only; omega)
  · dsimp only
    exact blockEnc_advance_WF s 0 hlen h (by omega)

/-- One decrypt pass keeps the cipher transform. -/
theorem decryptPass_crypto_tf (s : BlockDecryptionStream) (chunk : List Nat)
    (rest : Source) :
    (s.decryptPass chunk rest).1.crypto.tf = s.crypto.tf := by
  unfold BlockDecryptionStream.decryptPass
  dsimp only
  split <;> rfl

/-- One decrypt pass from a reset plaintext window preserves the loop
invariant: a transforming pass produces at least one block of plaintext and
leaves `readEnd + writePos` within the window; a non-transforming pass only
accumulates. -/
theorem decryptPass_LoopWF (s : BlockDecryptionStream) (chunk : List Nat)
    (rest : Source) (hB : 1 ≤ s.blockSize) (hlen : LenPres s.crypto.tf)
    (hQ : s.LoopWF) (hre : s.readEnd = 0) :
    (s.decryptPass chunk rest).1.LoopWF := by
  obtain ⟨hrp, hwp, hbuf, henc, _⟩ := hQ
  have hminw : min s.GetAvailableWrite chunk.length ≤ s.GetAvailableWrite :=
    Nat.min_le_left _ _
  have hminc : min s.GetAvailableWrite chunk.length ≤ chunk.length :=
    Nat.min_le_right _ _
  have hgw : s.GetAvailableWrite = capacity - s.writePos := rfl
  have hfit : s.writePos + min s.GetAvailableWrite chunk.length ≤ capacity := by
    omega
  have htl : (chunk.take (min s.GetAvailableWrite chunk.length)).length
      = min s.GetAvailableWrite chunk.length := by
    simp only [List.length_take]
    omega
  have hencl : (writeAt s.encrypedBuffer s.writePos
      (chunk.take (min s.GetAvailableWrite chunk.length))).length = capacity :=
    (writeAt_length _ _ _ (by rw [htl, henc]; omega)).trans henc
  unfold BlockDecryptionStream.decryptPass
  dsimp only
  split
  · rename_i hpos
    dsimp only
    -- transform pass: bytesToRead is a positive multiple of the block size
    have hdm := Nat.div_add_mod (s.writePos + min s.GetAvailableWrite chunk.length)
      s.blockSize
    have hmod := Nat.mod_lt (s.writePos + min s.GetAvailableWrite chunk.length)
      (show 0 < s.blockSize from hB)
    have hq2 : 2 ≤ (s.writePos + min s.GetAvailableWrite chunk.length)
        / s.blockSize := by
      by_contra hq
      push_neg at hq
      have hq1 : (s.writePos + min s.GetAvailableWrite chunk.length)
          / s.blockSize ≤ 1 := by omega
      have := Nat.mul_le_mul_left s.blockSize hq1
      omega
    have hbtr : s.blockSize ≤ s.writePos + min s.GetAvailableWrite chunk.length
        - (s.writePos + min s.GetAvailableWrite chunk.length) % s.blockSize
        - s.blockSize := by
      have := Nat.mul_le_mul_left s.blockSize hq2
      omega
    have hco : ((s.crypto.Cipher ((writeAt s.encrypedBuffer s.writePos
        (chunk.take (min s.GetAvailableWrite chunk.length))).take
          (s.writePos + min s.GetAvailableWrite chunk.length
            - (s.writePos + min s.GetAvailableWrite chunk.length) % s.blockSize
            - s.blockSize))).1).length
        = s.writePos + min s.GetAvailableWrite chunk.length
            - (s.writePos + min s.GetAvailableWrite chunk.length) % s.blockSize
            - s.blockSize := by
      simp only [SSLCrypto.Cipher]
      rw [List.length_drop, hlen, List.length_append, List.length_take, hencl]
      omega
    refine ⟨hrp, ?_, ?_, ?_, ?_⟩ <;> dsimp only
    · omega
    · refine (writeAt_length _ _ _ ?_).trans hbuf
      rw [hco, hbuf]
      omega
    · refine (writeAt_length _ _ _ ?_).trans hencl
      simp only [List.length_take, List.length_drop, hencl]
      omega
    · refine Or.inr ⟨?_, ?_⟩
      · rw [hco]
        omega
      · rw [hco]
        omega
  · refine ⟨hrp, ?_, hbuf, hencl, Or.inl hre⟩
    dsimp only
    omega

/-- The loop invariant survives the whole pull loop. -/
theorem decryptLoop_LoopWF (fuel : Nat) (s : BlockDecryptionStream) (acc : Nat)
    (hB : 1 ≤ s.blockSize) (hlen : LenPres s.crypto.tf) (hQ : s.LoopWF) :
    (BlockDecryptionStream.decryptLoop fuel s acc).1.LoopWF := by
  induction fuel generalizing s acc with
  | zero => exact hQ
  | succ n ih =>
    unfold BlockDecryptionStream.decryptLoop
    split
    · rename_i hguard
      rcases hsrc : s.source with _ | ⟨chunk, rest⟩
      · exact hQ
      · have hre : s.readEnd = 0 := by
          rcases hQ.2.2.2.2 with h0 | ⟨hge, _⟩
          · exact h0
          · simp only [BlockDecryptionStream.GetAvailableRead, hQ.1] at hguard
            omega
        dsimp only
        exact ih _ _ (by rw [decryptPass_blockSize]; exact hB)
          (by rw [decryptPass_crypto_tf]; exact hlen)
          (decryptPass_LoopWF s chunk rest hB hlen
            ⟨hQ.1, hQ.2.1, hQ.2.2.1, hQ.2.2.2.1, hQ.2.2.2.2⟩ hre)
    · exact hQ

theorem blockDec_decrypt_WF (t : BlockDecryptionStream) (hB : 1 ≤ t.blockSize)
    (hlen : LenPres t.crypto.tf) (h : t.WF) : (t.Decrypt).1.WF := by
  obtain ⟨h1, h2, h3, h4⟩ := h
  have hQ : ({ t with readPos := 0, readEnd := 0 } : BlockDecryptionStream).LoopWF :=
    ⟨rfl, by dsimp only; omega, h3, h4, Or.inl rfl⟩
  have hres := decryptLoop_LoopWF (sourceBytes t.source + 1)
    { t with readPos := 0, readEnd := 0 } 0 hB hlen hQ
  obtain ⟨q1, q2, q3, q4, q5⟩ := hres
  unfold BlockDecryptionStream.Decrypt
  dsimp only
  refine ⟨by rw [q1]; exact Nat.zero_le _, ?_, q3, q4⟩
  rcases q5 with h0 | ⟨_, hsum⟩
  · rw [h0]
    omega
  · exact hsum

theorem blockDec_nextRead_WF (t : BlockDecryptionStream) (hB : 1 ≤ t.blockSize)
    (hlen : LenPres t.crypto.tf) (h : t.WF) : (t.NextRead).1.WF := by
  by_cases hav : t.GetAvailableRead = 0 <;>
    unfold BlockDecryptionStream.NextRead <;> dsimp only
  · rw [if_pos hav]
    split
    · exact blockDec_decrypt_WF t hB hlen h
    · exact blockDec_decrypt_WF t hB hlen h
  · rw [if_neg hav]
    split
    · exact h
    · exact h

theorem blockDec_advanceRead_WF (t : BlockDecryptionStream) (n : Nat)
    (h : t.WF) : (t.AdvanceRead n).1.WF := by
  unfold BlockDecryptionStream.AdvanceRead
  split
  · rename_i hle
    simp only [BlockDecryptionStream.GetAvailableRead] at hle
    obtain ⟨h1, h2, h3, h4⟩ := h
    exact ⟨show t.readPos + n ≤ t.readEnd by omega,
      show t.readEnd + t.writePos ≤ capacity from h2, h3, h4⟩
  · exact h

/-- `Flush` never touches the ciphertext window contents, the read position,
or the source. -/
theorem flush_frame (t : BlockDecryptionStream) :
    (t.Flush).1.encrypedBuffer = t.encrypedBuffer ∧
    (t.Flush).1.readPos = t.readPos ∧ (t.Flush).1.writePos = 0 ∧
    (t.Flush).1.blockSize = t.blockSize ∧ (t.Flush).1.source = t.source := by
  unfold BlockDecryptionStream.Flush
  dsimp only
  split
  · split <;> exact ⟨rfl, rfl, rfl, rfl, rfl⟩
  · exact ⟨rfl, rfl, rfl, rfl, rfl⟩

/-- `Flush` of an empty ciphertext buffer leaves the plaintext window and
read-end unchanged. -/
theorem flush_empty (t : BlockDecryptionStream) (hlen : LenPres t.crypto.tf)
    (hw0 : t.writePos = 0) :
    (t.Flush).1.readEnd = t.readEnd ∧ (t.Flush).1.buffer = t.buffer := by
  have hco : ((t.crypto.Cipher (t.encrypedBuffer.take t.writePos)).1).length = 0 := by
    simp only [SSLCrypto.Cipher]
    rw [List.length_drop, hlen, List.length_append]
    simp [hw0]
  unfold BlockDecryptionStream.Flush
  simp only [BlockDecryptionStream.GetUsedWrite]
  rw [if_neg (by omega)]
  exact ⟨rfl, rfl⟩

/-- Window safety of `BlockDecryptionStream::Flush`: the plaintext window
keeps its capacity (the decrypted withheld bytes land entirely within it),
and under the block-alignment precondition the cursor invariant is fully
preserved. -/
theorem blockDec_flush_WF (t : BlockDecryptionStream)
    (hlen : LenPres t.crypto.tf) (h : t.WF) :
    ((t.Flush).1.buffer.length = capacity ∧
      (t.Flush).1.encrypedBuffer.length = capacity ∧
      t.readEnd + t.GetUsedWrite ≤ capacity) ∧
    (t.GetUsedWrite % t.blockSize = 0 → (t.Flush).1.WF) := by
  simp only [BlockDecryptionStream.GetUsedWrite]
  obtain ⟨h1, h2, h3, h4⟩ := h
  obtain ⟨hf1, hf2, hf3, _, _⟩ := flush_frame t
  rcases Nat.eq_zero_or_pos t.writePos with hw0 | hwpos
  · obtain ⟨he1, he2⟩ := flush_empty t hlen hw0
    refine ⟨⟨by rw [he2]; exact h3, by rw [hf1]; exact h4, by omega⟩, fun _ => ?_⟩
    exact ⟨by rw [hf2, he1]; exact h1, by rw [he1, hf3]; omega,
      by rw [he2]; exact h3, by rw [hf1]; exact h4⟩
  · obtain ⟨hs1, hs2, hs3, hgood, hbad⟩ := flush_spec t hlen h3 h4 hwpos h2
    have hcol : (flushCo t).length = t.writePos :=
      flushCo_length t hlen h4 (by omega)
    have hbl : (t.Flush).1.buffer.length = capacity := by
      rw [hs2]
      refine (writeAt_length _ _ _ ?_).trans h3
      rw [hcol, h3]
      omega
    refine ⟨⟨hbl, by rw [hf1]; exact h4, h2⟩, fun hwhole => ?_⟩
    have hBpos : 1 ≤ t.blockSize := by
      rcases Nat.eq_zero_or_pos t.blockSize with hb0 | hbp
      · rw [hb0] at hwhole
        simp at hwhole
        omega
      · exact hbp
    have hwge : t.blockSize ≤ t.writePos := by
      have hdm := Nat.div_add_mod t.writePos t.blockSize
      rcases Nat.eq_zero_or_pos (t.writePos / t.blockSize) with hq0 | hqp
      · rw [hq0] at hdm
        omega
      · have h5 := Nat.mul_le_mul_left t.blockSize hqp
        omega
    rcases le_or_lt (flushPadByte t) t.blockSize with hv | hv
    · obtain ⟨hr1, _⟩ := hgood hv
      refine ⟨?_, ?_, hbl, by rw [hf1]; exact h4⟩
      · rw [hf2, hr1]
        omega
      · rw [hr1, hf3]
        omega
    · obtain ⟨hr1, _⟩ := hbad hv
      refine ⟨?_, ?_, hbl, by rw [hf1]; exact h4⟩
      · rw [hf2, hr1]
        omega
      · rw [hr1, hf3]
        omega

/-- C2: every operation of the buffered adapters keeps every fixed window at
its 4096-byte capacity (all reads and writes stay inside `[0, C)`, since an
out-of-range write would change a window's length) and preserves the cursor
invariants `0 ≤ readPos ≤ readEnd`, `readEnd + usedWrite ≤ capacity` and
`0 ≤ writeCursor ≤ capacity`; in particular `BlockDecryptionStream::Flush`
writes the decrypted withheld bytes entirely within the plaintext window's
remaining capacity (`readEnd + usedWrite ≤ capacity` and the window keeps its
length).  The flush cursor invariant is stated under the block-alignment
precondition that `Flush`'s own `TWN_REQUIRE` asserts; the encryptor's write
is bounded by the span `NextWrite` returned, per the §4.1 contract. -/
theorem window_safety (d : DecryptionStream) (e : BlockEncryptionStream)
    (t : BlockDecryptionStream) (data : List Nat) (n m : Nat)
    (hd : d.WF) (hdl : LenPres d.crypto.tf)
    (he : e.WF) (hel : LenPres e.crypto.tf) (hfit : data.length ≤ e.NextWrite)
    (ht : t.WF) (htl : LenPres t.crypto.tf) (hB : 1 ≤ t.blockSize) :
    (d.Decrypt).1.WF ∧ (d.AdvanceRead n).1.WF ∧ (d.NextRead).1.WF ∧
    (e.AdvanceWrite data).1.WF ∧ (e.Flush).1.WF ∧
    (t.Decrypt).1.WF ∧ (t.AdvanceRead m).1.WF ∧ (t.NextRead).1.WF ∧
    ((t.Flush).1.buffer.length = capacity ∧
      (t.Flush).1.encrypedBuffer.length = capacity ∧
      t.readEnd + t.GetUsedWrite ≤ capacity) ∧
    (t.GetUsedWrite % t.blockSize = 0 → (t.Flush).1.WF) :=
  ⟨decryptionStream_decrypt_WF d hdl hd.2.2,
   decryptionStream_advanceRead_WF d n hd,
   decryptionStream_nextRead_WF d hdl hd,
   blockEnc_advanceWrite_WF e data hel he hfit,
   blockEnc_flush_WF e hel he,
   blockDec_decrypt_WF t hB htl ht,
   blockDec_advanceRead_WF t m ht,
   blockDec_nextRead_WF t hB htl ht,
   (blockDec_flush_WF t htl ht).1,
   (blockDec_flush_WF t htl ht).2⟩

/-- Fresh, initialized adapters satisfy their invariants. -/
theorem fresh_WF (src src2 : Source) (tf tg th : List Nat → List Nat) (k k2 : Nat) :
    ((DecryptionStream.new src).Init tf).WF ∧
    ((BlockEncryptionStream.new).Init tg k).WF ∧
    (((BlockDecryptionStream.new src2).Init th k2)).WF := by
  simp only [DecryptionStream.WF, BlockEncryptionStream.WF,
    BlockDecryptionStream.WF, DecryptionStream.Init, DecryptionStream.new,
    BlockEncryptionStream.Init, BlockEncryptionStream.new,
    BlockDecryptionStream.Init, BlockDecryptionStream.new]
  simp

/-- Witness for C2: the fresh identity-cipher adapters, one write, one read,
one flush each. -/
theorem window_safety_witness :
    ((((DecryptionStream.new [[3]]).Init idTf).Decrypt).1.WF) ∧
    (((BlockEncryptionStream.new.Init idTf 16).AdvanceWrite [1]).1.WF) ∧
    (((BlockEncryptionStream.new.Init idTf 16).Flush).1.WF) ∧
    ((((BlockDecryptionStream.new [[7]]).Init idTf 16).Decrypt).1.WF) ∧
    ((((BlockDecryptionStream.new [[7]]).Init idTf 16).Flush).1.buffer.length
      = capacity) := by
  obtain ⟨w1, w2, w3⟩ := fresh_WF [[3]] [[7]] idTf idTf idTf 16 16
  obtain ⟨c1, _, _, c4, c5, c6, _, _, c9, _⟩ := window_safety
    ((DecryptionStream.new [[3]]).Init idTf)
    (BlockEncryptionStream.new.Init idTf 16)
    ((BlockDecryptionStream.new [[7]]).Init idTf 16)
    [1] 0 0 w1 idTf_lenPres w2 idTf_lenPres (by decide)
    w3 idTf_lenPres (by decide)
  exact ⟨c1, c4, c5, c6, c9.1⟩

/-! ## Round trip (C1): encryption side -/

/-- Below one block, `advance` only moves the write cursor. -/
theorem advance_lt (s : BlockEncryptionStream) (bytes : Nat)
    (h : bytes + s.writePos < s.blockSize) :
    s.advance bytes = ({ s with writePos := bytes + s.writePos }, true) := by
  unfold BlockEncryptionStream.advance
  simp only [BlockEncryptionStream.GetAvailableRead]
  rw [if_neg (by omega)]

/-- At or above one block, `advance` transforms the aligned prefix of the
accumulation buffer, compacts the remainder to the front, and forwards the
cipher output to the sink. -/
theorem advance_ge (s : BlockEncryptionStream) (bytes : Nat)
    (h : s.blockSize ≤ bytes + s.writePos) :
    s.advance bytes = ({ s with
      crypto := { tf := s.crypto.tf, hist := s.crypto.hist
        ++ s.buffer.take (bytes + s.writePos
            - (bytes + s.writePos) % s.blockSize) },
      buffer := writeAt s.buffer 0 ((s.buffer.drop
          (bytes + s.writePos - (bytes + s.writePos) % s.blockSize)).take
          ((bytes + s.writePos) % s.blockSize)),
      encrypedBuffer := writeAt s.encrypedBuffer 0
        (s.crypto.Cipher (s.buffer.take (bytes + s.writePos
          - (bytes + s.writePos) % s.blockSize))).1,
      writePos := (bytes + s.writePos) % s.blockSize,
      out := s.out ++ (s.crypto.Cipher (s.buffer.take (bytes + s.writePos
          - (bytes + s.writePos) % s.blockSize))).1 }, true) := by
  have hml := Nat.mod_le (bytes + s.writePos) s.blockSize
  unfold BlockEncryptionStream.advance
  simp only [BlockEncryptionStream.GetAvailableRead]
  rw [if_pos h]
  rw [show bytes + s.writePos - (bytes + s.writePos
        - (bytes + s.writePos) % s.blockSize) = (bytes + s.writePos) % s.blockSize
      from by omega]
  rw [writeAt_zero_take]
  rfl

/-- `AdvanceWrite` is `advance` after placing the caller's bytes at the write
cursor. -/
theorem advanceWrite_eq_advance (s : BlockEncryptionStream) (data : List Nat) :
    s.AdvanceWrite data
      = BlockEncryptionStream.advance
          { s with buffer := writeAt s.buffer s.writePos data } data.length := rfl

/-- State of the block encryptor after absorbing exactly the byte sequence
`d`: the aligned prefix of `d` has gone through the cipher and out to the
sink, and the sub-block remainder is pending at the front of the window. -/
def EncInv (tE : List Nat → List Nat) (B : Nat) (d : List Nat)
    (s : BlockEncryptionStream) : Prop :=
  s.blockSize = B ∧ s.crypto.tf = tE ∧
  s.crypto.hist = d.take (d.length - d.length % B) ∧
  s.writePos = d.length % B ∧
  s.buffer.take s.writePos = d.drop (d.length - d.length % B) ∧
  s.buffer.length = capacity ∧ s.encrypedBuffer.length = capacity ∧
  s.out = tE (d.take (d.length - d.length % B))

theorem encInv_init (tE : List Nat → List Nat) (B : Nat) (hEl : LenPres tE) :
    EncInv tE B [] (BlockEncryptionStream.new.Init tE B) := by
  have h0 := hEl []
  simp only [List.length_nil] at h0
  have h0' : tE [] = [] := List.length_eq_zero.mp h0
  refine ⟨rfl, rfl, ?_, ?_, ?_, ?_, ?_, ?_⟩ <;>
    simp [BlockEncryptionStream.Init, BlockEncryptionStream.new, h0']

theorem encInv_advanceWrite (tE : List Nat → List Nat) (B : Nat)
    (d data : List Nat) (s : BlockEncryptionStream)
    (hB : 1 ≤ B) (hcap : B < capacity) (hEl : LenPres tE) (hEc : Causal tE)
    (hinv : EncInv tE B d s) (hfit : data.length + B ≤ capacity) :
    EncInv tE B (d ++ data) (s.AdvanceWrite data).1 := by
  obtain ⟨hbs, htf, hhist, hwp, hpend, hbuf, henc, hout⟩ := hinv
  have hrB : d.length % B < B := Nat.mod_lt _ hB
  have hml : d.length % B ≤ d.length := Nat.mod_le _ _
  have hdm := Nat.div_add_mod d.length B
  have hA : d.length - d.length % B = B * (d.length / B) := by omega
  have hL' : (d ++ data).length = d.length + data.length := List.length_append d data
  have hmod' : (d ++ data).length % B = (d.length % B + data.length) % B := by
    rw [hL', show d.length + data.length
      = B * (d.length / B) + (d.length % B + data.length) from by omega,
      Nat.mul_add_mod]
  have hfit2 : s.writePos + data.length ≤ capacity := by omega
  have hbw : (writeAt s.buffer s.writePos data).length = capacity :=
    (writeAt_length _ _ _ (by rw [hbuf]; omega)).trans hbuf
  have hkey : (writeAt s.buffer s.writePos data).take (s.writePos + data.length)
      = d.drop (d.length - d.length % B) ++ data := by
    rw [writeAt_take_concat _ _ _ (by rw [hbuf]; omega), hpend]
  have hdd : (d ++ data).drop (d.length - d.length % B)
      = d.drop (d.length - d.length % B) ++ data := by
    rw [List.drop_append_eq_append_drop,
      show d.length - d.length % B - d.length = 0 from by omega, List.drop_zero]
  rw [advanceWrite_eq_advance]
  rcases Nat.lt_or_ge (data.length + s.writePos) s.blockSize with hlt | hge
  · -- no transform
    rw [advance_lt { s with buffer := writeAt s.buffer s.writePos data }
      data.length hlt]
    have hr' : (d ++ data).length % B = d.length % B + data.length := by
      rw [hmod']
      exact Nat.mod_eq_of_lt (by omega)
    have hA' : (d ++ data).length - (d ++ data).length % B
        = d.length - d.length % B := by omega
    refine ⟨hbs, htf, ?_, ?_, ?_, hbw, henc, ?_⟩ <;> dsimp only
    · rw [hhist, hA',
        List.take_append_of_le_length (show d.length - d.length % B ≤ d.length by omega)]
    · rw [hr', hwp]
      omega
    · rw [show data.length + s.writePos = s.writePos + data.length from by omega,
        hkey, hA', hdd]
    · rw [hout, hA',
        List.take_append_of_le_length (show d.length - d.length % B ≤ d.length by omega)]
  · -- transform of the aligned prefix
    rw [advance_ge { s with buffer := writeAt s.buffer s.writePos data }
      data.length hge]
    dsimp only
    have htot : data.length + s.writePos = data.length + d.length % B := by omega
    have hr' : (d ++ data).length % B
        = (data.length + s.writePos) % s.blockSize := by
      rw [hmod', hwp, hbs, Nat.add_comm (d.length % B) data.length]
    have hAnew_le : data.length + s.writePos
        - (data.length + s.writePos) % s.blockSize ≤ s.writePos + data.length := by
      have := Nat.mod_le (data.length + s.writePos) s.blockSize
      omega
    have hA' : (d ++ data).length - (d ++ data).length % B
        = (d.length - d.length % B) + (data.length + s.writePos
          - (data.length + s.writePos) % s.blockSize) := by
      have := Nat.mod_le (data.length + s.writePos) s.blockSize
      omega
    have hPnew : (writeAt s.buffer s.writePos data).take
        (data.length + s.writePos - (data.length + s.writePos) % s.blockSize)
        = ((d ++ data).drop (d.length - d.length % B)).take
          (data.length + s.writePos - (data.length + s.writePos) % s.blockSize) := by
      rw [hdd, ← hkey, List.take_take, Nat.min_eq_left (by omega)]
    have hhist' : s.crypto.hist ++ (writeAt s.buffer s.writePos data).take
        (data.length + s.writePos - (data.length + s.writePos) % s.blockSize)
        = (d ++ data).take ((d ++ data).length - (d ++ data).length % B) := by
      rw [hhist, hPnew, hA', List.take_add,
        List.take_append_of_le_length (show d.length - d.length % B ≤ d.length by omega)]
    have hhl : s.crypto.hist.length = d.length - d.length % B := by
      rw [hhist, List.length_take]
      omega
    have htakeA : ((d ++ data).take ((d ++ data).length - (d ++ data).length % B)).take
        (d.length - d.length % B) = d.take (d.length - d.length % B) := by
      rw [List.take_take, Nat.min_eq_left (by omega),
        List.take_append_of_le_length (show d.length - d.length % B ≤ d.length by omega)]
    have hcaus : (tE ((d ++ data).take ((d ++ data).length - (d ++ data).length % B))).take
        (d.length - d.length % B) = tE (d.take (d.length - d.length % B)) := by
      have hx := hEc (d.take (d.length - d.length % B))
        (((d ++ data).take ((d ++ data).length - (d ++ data).length % B)).drop
          (d.length - d.length % B))
      rw [List.length_take, Nat.min_eq_left (by omega)] at hx
      have hYsplit : d.take (d.length - d.length % B)
          ++ ((d ++ data).take ((d ++ data).length - (d ++ data).length % B)).drop
            (d.length - d.length % B)
          = (d ++ data).take ((d ++ data).length - (d ++ data).length % B) := by
        rw [← htakeA]
        exact List.take_append_drop _ _
      rw [hYsplit] at hx
      exact hx
    refine ⟨hbs, htf, hhist', ?_, ?_, ?_, ?_, ?_⟩ <;> dsimp only
    · rw [hr']
    · -- pending remainder is the tail of the new data
      have hslice : (((writeAt s.buffer s.writePos data).drop
          (data.length + s.writePos - (data.length + s.writePos) % s.blockSize)).take
          ((data.length + s.writePos) % s.blockSize)).length
          = (data.length + s.writePos) % s.blockSize := by
        simp only [List.length_take, List.length_drop, hbw]
        have := Nat.mod_le (data.length + s.writePos) s.blockSize
        omega
      calc (writeAt (writeAt s.buffer s.writePos data) 0
            (((writeAt s.buffer s.writePos data).drop
              (data.length + s.writePos - (data.length + s.writePos) % s.blockSize)).take
              ((data.length + s.writePos) % s.blockSize))).take
            ((data.length + s.writePos) % s.blockSize)
          = ((writeAt s.buffer s.writePos data).drop
              (data.length + s.writePos - (data.length + s.writePos) % s.blockSize)).take
              ((data.length + s.writePos) % s.blockSize) :=
            writeAt_zero_take_of _ _ _ hslice
        _ = ((writeAt s.buffer s.writePos data).take (s.writePos + data.length)).drop
              (data.length + s.writePos - (data.length + s.writePos) % s.blockSize) := by
            rw [List.drop_take]
            congr 1
            have := Nat.mod_le (data.length + s.writePos) s.blockSize
            omega
        _ = (d ++ data).drop ((d ++ data).length - (d ++ data).length % B) := by
            rw [hkey, ← hdd, List.drop_drop, hA']
    · refine (writeAt_length _ _ _ ?_).trans hbw
      simp only [List.length_take, List.length_drop, hbw]
      have := Nat.mod_le (data.length + s.writePos) s.blockSize
      omega
    · -- encrypted output buffer keeps its capacity
      have hco1 : ((s.crypto.Cipher ((writeAt s.buffer s.writePos data).take
          (data.length + s.writePos
            - (data.length + s.writePos) % s.blockSize))).1).length
          = data.length + s.writePos - (data.length + s.writePos) % s.blockSize := by
        simp only [SSLCrypto.Cipher]
        rw [List.length_drop, htf, hEl, List.length_append, List.length_take, hbw]
        omega
      refine (writeAt_length _ _ _ ?_).trans henc
      rw [hco1, henc]
      omega
    · -- forwarded output extends to the cipher of the new aligned prefix
      have hco1v : (s.crypto.Cipher ((writeAt s.buffer s.writePos data).take
          (data.length + s.writePos - (data.length + s.writePos) % s.blockSize))).1
          = (tE ((d ++ data).take
              ((d ++ data).length - (d ++ data).length % B))).drop
            (d.length - d.length % B) := by
        simp only [SSLCrypto.Cipher]
        rw [htf, hhist', hhl]
      rw [hco1v, hout, ← hcaus, List.take_append_drop]

theorem encInv_foldl (tE : List Nat → List Nat) (B : Nat)
    (hB : 1 ≤ B) (hcap : B < capacity) (hEl : LenPres tE) (hEc : Causal tE)
    (chunks : List (List Nat)) :
    ∀ d s, EncInv tE B d s → (∀ c ∈ chunks, c.length + B ≤ capacity) →
    EncInv tE B (d ++ chunks.flatten)
      (chunks.foldl (fun t c => (t.AdvanceWrite c).1) s) := by
  induction chunks with
  | nil =>
    intro d s hinv _
    simpa using hinv
  | cons c cs ih =>
    intro d s hinv hfit
    have h1 := encInv_advanceWrite tE B d c s hB hcap hEl hEc hinv
      (hfit c (by simp))
    have h2 := ih (d ++ c) (s.AdvanceWrite c).1 h1 (fun x hx => hfit x (by simp [hx]))
    simpa [List.append_assoc] using h2

theorem encInv_flush (tE : List Nat → List Nat) (B : Nat) (d : List Nat)
    (s : BlockEncryptionStream) (hB : 1 ≤ B) (hcap : B < capacity)
    (hEl : LenPres tE) (hEc : Causal tE) (hinv : EncInv tE B d s) :
    (s.Flush).1.out = tE (d ++ padTrailer (B - d.length % B)) ∧
    (s.Flush).2 = true := by
  obtain ⟨hbs, htf, hhist, hwp, hpend, hbuf, henc, hout⟩ := hinv
  rw [hwp] at hpend
  have hrB : d.length % B < B := Nat.mod_lt _ hB
  have hml : d.length % B ≤ d.length := Nat.mod_le _ _
  have hhl : s.crypto.hist.length = d.length - d.length % B := by
    rw [hhist, List.length_take]
    omega
  unfold BlockEncryptionStream.Flush Pad
  simp only [BlockEncryptionStream.GetAvailableRead]
  rw [hwp, hbs, Nat.mod_eq_of_lt hrB]
  rw [if_pos (show d.length % B + (B - d.length % B) < capacity from by omega)]
  dsimp only
  rw [advance_ge { crypto := s.crypto, blockSize := B, buffer := writeAt s.buffer (d.length % B) (padTrailer (B - d.length % B)), encrypedBuffer := s.encrypedBuffer, writePos := d.length % B, out := s.out } (B - d.length % B) (by dsimp only; omega)]
  dsimp only
  rw [show B - d.length % B + d.length % B = B from by omega, Nat.mod_self,
    Nat.sub_zero]
  have hbp : (writeAt s.buffer (d.length % B)
      (padTrailer (B - d.length % B))).take B
      = d.drop (d.length - d.length % B) ++ padTrailer (B - d.length % B) := by
    have h := writeAt_take_concat s.buffer (d.length % B)
      (padTrailer (B - d.length % B)) (by rw [hbuf]; omega)
    rw [padTrailer_length _ (by omega),
      show d.length % B + (B - d.length % B) = B from by omega] at h
    rw [h, hpend]
  rw [hbp]
  have hfull : s.crypto.hist ++ (d.drop (d.length - d.length % B)
      ++ padTrailer (B - d.length % B))
      = d ++ padTrailer (B - d.length % B) := by
    rw [hhist, ← List.append_assoc, List.take_append_drop]
  have hcaus : (tE (d ++ padTrailer (B - d.length % B))).take
      (d.length - d.length % B) = tE (d.take (d.length - d.length % B)) := by
    have hx := hEc (d.take (d.length - d.length % B))
      (d.drop (d.length - d.length % B) ++ padTrailer (B - d.length % B))
    rw [List.length_take, Nat.min_eq_left (by omega), ← List.append_assoc,
      List.take_append_drop] at hx
    exact hx
  constructor
  · show s.out ++ (s.crypto.Cipher (d.drop (d.length - d.length % B)
      ++ padTrailer (B - d.length % B))).1 = _
    simp only [SSLCrypto.Cipher]
    rw [hfull, htf, hhl, hout, ← hcaus, List.take_append_drop]
  · show (true && decide ((d.length % B + (B - d.length % B)) % B = 0)) = true
    rw [show d.length % B + (B - d.length % B) = B from by omega, Nat.mod_self]
    simp

/-- The ciphertext a block encryptor emits for application writes `chunks`:
the cipher transform of the flattened plaintext followed by its padding
trailer. -/
theorem encryptAll_out (tE : List Nat → List Nat) (B : Nat)
    (chunks : List (List Nat)) (hB : 1 ≤ B) (hcap : B < capacity)
    (hEl : LenPres tE) (hEc : Causal tE)
    (hfit : ∀ c ∈ chunks, c.length + B ≤ capacity) :
    (encryptAll tE B chunks).out
      = tE (chunks.flatten ++ padTrailer (B - chunks.flatten.length % B)) ∧
    (encryptAll tE B chunks).out.length
      = chunks.flatten.length + (B - chunks.flatten.length % B) := by
  have h0 := encInv_init tE B hEl
  have h1 := encInv_foldl tE B hB hcap hEl hEc chunks [] _ h0 hfit
  simp only [List.nil_append] at h1
  have h2 := encInv_flush tE B chunks.flatten _ hB hcap hEl hEc h1
  refine ⟨h2.1, ?_⟩
  have hp : 1 ≤ B - chunks.flatten.length % B := by
    have := Nat.mod_lt chunks.flatten.length (show 0 < B from hB)
    omega
  show ((chunks.foldl (fun t c => (t.AdvanceWrite c).1)
    (BlockEncryptionStream.new.Init tE B)).Flush).1.out.length = _
  rw [h2.1, hEl, List.length_append, padTrailer_length _ hp]

/-! ## Round trip (C1): decryption side -/

/-- An online transform maps prefixes to prefixes. -/
theorem causal_take (tD : List Nat → List Nat) (hDc : Causal tD)
    (xs : List Nat) (m : Nat) (hm : m ≤ xs.length) :
    tD (xs.take m) = (tD xs).take m := by
  have hx := hDc (xs.take m) (xs.drop m)
  rw [List.take_append_drop, List.length_take, Nat.min_eq_left hm] at hx
  exact hx.symm

/-- Precondition of the decrypt pull loop: `k` ciphertext bytes are already
transformed, the next `writePos` of them are pending in the ciphertext
window, the rest are still in the source, and the plaintext cursors are
reset. -/
def LoopPre (tD : List Nat → List Nat) (B : Nat) (ct : List Nat) (k : Nat)
    (s : BlockDecryptionStream) : Prop :=
  s.blockSize = B ∧ s.crypto.tf = tD ∧ s.crypto.hist = ct.take k ∧
  (∃ i, k = B * i) ∧ (k = 0 ∨ k + B ≤ ct.length) ∧
  k + s.writePos ≤ ct.length ∧
  s.encrypedBuffer.take s.writePos = (ct.drop k).take s.writePos ∧
  s.source.flatten = ct.drop (k + s.writePos) ∧ (∀ c ∈ s.source, c ≠ []) ∧
  s.writePos < 2 * B ∧
  s.buffer.length = capacity ∧ s.encrypedBuffer.length = capacity ∧
  s.readPos = 0 ∧ s.readEnd = 0

/-- Postcondition of the decrypt pull loop relative to entry index `k`:
`k' - k` new ciphertext bytes were transformed and their plaintext sits at
the start of the window. -/
def LoopPost (tD : List Nat → List Nat) (B : Nat) (ct : List Nat) (k k' : Nat)
    (s : BlockDecryptionStream) : Prop :=
  s.blockSize = B ∧ s.crypto.tf = tD ∧ s.crypto.hist = ct.take k' ∧
  (∃ i, k' = B * i) ∧ (k' = 0 ∨ k' + B ≤ ct.length) ∧
  k' + s.writePos ≤ ct.length ∧
  s.encrypedBuffer.take s.writePos = (ct.drop k').take s.writePos ∧
  s.source.flatten = ct.drop (k' + s.writePos) ∧ (∀ c ∈ s.source, c ≠ []) ∧
  s.writePos < 2 * B ∧
  s.buffer.length = capacity ∧ s.encrypedBuffer.length = capacity ∧
  s.readPos = 0 ∧ s.readEnd = k' - k ∧
  s.readEnd + s.writePos ≤ capacity ∧
  s.buffer.take (k' - k) = ((tD ct).drop k).take (k' - k)

/-- One pass of the pull loop under the loop precondition: at least one
source byte is consumed; either at least a block of plaintext was produced
(the loop will exit) or nothing was transformed and the precondition still
holds at the same transform index. -/
theorem decryptPass_correct (tD : List Nat → List Nat) (B : Nat)
    (ct : List Nat) (k : Nat) (s : BlockDecryptionStream)
    (chunk : List Nat) (rest : Source)
    (hB : 1 ≤ B) (hcap : 2 * B ≤ capacity)
    (hDl : LenPres tD) (hDc : Causal tD)
    (hpre : LoopPre tD B ct k s) (hsq : s.source = chunk :: rest) :
    1 ≤ (s.decryptPass chunk rest).2 ∧
    (s.decryptPass chunk rest).2 ≤ chunk.length ∧
    sourceBytes (s.decryptPass chunk rest).1.source
      = sourceBytes s.source - (s.decryptPass chunk rest).2 ∧
    ∃ k', k ≤ k' ∧
      k' + (s.decryptPass chunk rest).1.writePos
        = k + s.writePos + (s.decryptPass chunk rest).2 ∧
      (B ≤ (s.decryptPass chunk rest).1.readEnd ∨
        ((s.decryptPass chunk rest).1.readEnd = 0 ∧ k' = k ∧
          LoopPre tD B ct k (s.decryptPass chunk rest).1)) ∧
      LoopPost tD B ct k k' (s.decryptPass chunk rest).1 := by
  obtain ⟨hbs, htf, hhist, ⟨i, hi⟩, hkB, hkw, hpend, hsrc, hne, hwlt, hbuf,
    henc, hrp, hre⟩ := hpre
  have hchne : chunk ≠ [] := hne chunk (by rw [hsq]; simp)
  have hchpos : 1 ≤ chunk.length := List.length_pos.mpr hchne
  have hgw : s.GetAvailableWrite = capacity - s.writePos := rfl
  have hlen1 : 1 ≤ min s.GetAvailableWrite chunk.length := by
    rw [hgw]
    omega
  have hlenc : min s.GetAvailableWrite chunk.length ≤ chunk.length :=
    Nat.min_le_right _ _
  have hfit : s.writePos + min s.GetAvailableWrite chunk.length ≤ capacity := by
    have := Nat.min_le_left s.GetAvailableWrite chunk.length
    rw [hgw] at this
    omega
  have hchlen : (chunk.take (min s.GetAvailableWrite chunk.length)).length
      = min s.GetAvailableWrite chunk.length := by
    simp only [List.length_take]
    omega
  have hflat : chunk ++ rest.flatten = ct.drop (k + s.writePos) := by
    rw [← hsrc, hsq]
    simp
  have hchlenle : chunk.length ≤ ct.length - (k + s.writePos) := by
    have h1 : (chunk ++ rest.flatten).length = ct.length - (k + s.writePos) := by
      rw [hflat, List.length_drop]
    simp only [List.length_append] at h1
    omega
  have hka : k + (s.writePos + min s.GetAvailableWrite chunk.length)
      ≤ ct.length := by omega
  have hchtake : chunk.take (min s.GetAvailableWrite chunk.length)
      = (ct.drop (k + s.writePos)).take (min s.GetAvailableWrite chunk.length) := by
    rw [← hflat, List.take_append_of_le_length hlenc]
  have hencl : (writeAt s.encrypedBuffer s.writePos
      (chunk.take (min s.GetAvailableWrite chunk.length))).length = capacity :=
    (writeAt_length _ _ _ (by rw [hchlen, henc]; omega)).trans henc
  have hpend' : (writeAt s.encrypedBuffer s.writePos
      (chunk.take (min s.GetAvailableWrite chunk.length))).take
        (s.writePos + min s.GetAvailableWrite chunk.length)
      = (ct.drop k).take (s.writePos + min s.GetAvailableWrite chunk.length) := by
    have h0 := writeAt_take_concat s.encrypedBuffer s.writePos
      (chunk.take (min s.GetAvailableWrite chunk.length)) (by rw [henc]; omega)
    rw [hchlen] at h0
    rw [h0, hpend, hchtake, List.take_add, List.drop_drop]
  have hsrc' : (sourceAdvance (chunk :: rest)
      (min s.GetAvailableWrite chunk.length)).flatten
      = ct.drop (k + (s.writePos + min s.GetAvailableWrite chunk.length)) := by
    rw [show k + (s.writePos + min s.GetAvailableWrite chunk.length)
        = (k + s.writePos) + min s.GetAvailableWrite chunk.length from by omega,
      ← List.drop_drop, ← hflat]
    simp only [sourceAdvance]
    split
    · rename_i hlt
      simp only [List.flatten_cons]
      rw [List.drop_append_eq_append_drop,
        Nat.sub_eq_zero_of_le hlenc, List.drop_zero]
    · rename_i hge
      have hleneq : min s.GetAvailableWrite chunk.length = chunk.length := by
        omega
      rw [hleneq, List.drop_left]
  have hneR : ∀ c ∈ rest, c ≠ [] := fun c hc =>
    hne c (by rw [hsq]; exact List.mem_cons_of_mem _ hc)
  have hne' : ∀ c ∈ sourceAdvance (chunk :: rest)
      (min s.GetAvailableWrite chunk.length), c ≠ [] := by
    intro c hc
    simp only [sourceAdvance] at hc
    split at hc
    · rename_i hlt
      rcases List.mem_cons.mp hc with hc1 | hc2
      · subst hc1
        intro hnil
        have hh := congrArg List.length hnil
        simp only [List.length_drop, List.length_nil] at hh
        omega
      · exact hneR c hc2
    · exact hneR c hc
  have hbytes : sourceBytes (sourceAdvance (chunk :: rest)
      (min s.GetAvailableWrite chunk.length))
      = sourceBytes (chunk :: rest) - min s.GetAvailableWrite chunk.length :=
    sourceAdvance_bytes chunk rest _ hlenc
  have hmoda : (s.writePos + min s.GetAvailableWrite chunk.length) % B < B :=
    Nat.mod_lt _ (show 0 < B from hB)
  have hdm := Nat.div_add_mod (s.writePos + min s.GetAvailableWrite chunk.length) B
  unfold BlockDecryptionStream.decryptPass
  dsimp only
  rw [hbs, hsq]
  split
  · -- transform of all whole blocks except a withheld final block
    rename_i hpos
    refine ⟨hlen1, hlenc, hbytes, ?_⟩
    have hq2 : 2 ≤ (s.writePos + min s.GetAvailableWrite chunk.length) / B := by
      by_contra hq
      push_neg at hq
      have hq1 : (s.writePos + min s.GetAvailableWrite chunk.length) / B ≤ 1 := by
        omega
      have := Nat.mul_le_mul_left B hq1
      omega
    have hAnew_ge : B ≤ s.writePos + min s.GetAvailableWrite chunk.length
        - (s.writePos + min s.GetAvailableWrite chunk.length) % B - B := by
      have := Nat.mul_le_mul_left B hq2
      omega
    have hq : (s.writePos + min s.GetAvailableWrite chunk.length) / B
        = ((s.writePos + min s.GetAvailableWrite chunk.length) / B - 1) + 1 := by
      omega
    have hmulsucc := Nat.mul_succ B
      ((s.writePos + min s.GetAvailableWrite chunk.length) / B - 1)
    simp only [Nat.succ_eq_add_one] at hmulsucc
    rw [← hq] at hmulsucc
    have hAnew_mul : s.writePos + min s.GetAvailableWrite chunk.length
        - (s.writePos + min s.GetAvailableWrite chunk.length) % B - B
        = B * ((s.writePos + min s.GetAvailableWrite chunk.length) / B - 1) := by
      omega
    have hchunk2 : (writeAt s.encrypedBuffer s.writePos
        (chunk.take (min s.GetAvailableWrite chunk.length))).take
          (s.writePos + min s.GetAvailableWrite chunk.length
            - (s.writePos + min s.GetAvailableWrite chunk.length) % B - B)
        = (ct.drop k).take (s.writePos + min s.GetAvailableWrite chunk.length
            - (s.writePos + min s.GetAvailableWrite chunk.length) % B - B) := by
      have h := congrArg (List.take (s.writePos + min s.GetAvailableWrite chunk.length
        - (s.writePos + min s.GetAvailableWrite chunk.length) % B - B)) hpend'
      simp only [List.take_take] at h
      rw [Nat.min_eq_left (by omega)] at h
      exact h
    have hhl : s.crypto.hist.length = k := by
      rw [hhist, List.length_take, Nat.min_eq_left (by omega)]
    have hPTlen : (tD ct).length = ct.length := hDl ct
    have hco1 : (s.crypto.Cipher ((writeAt s.encrypedBuffer s.writePos
        (chunk.take (min s.GetAvailableWrite chunk.length))).take
          (s.writePos + min s.GetAvailableWrite chunk.length
            - (s.writePos + min s.GetAvailableWrite chunk.length) % B - B))).1
        = ((tD ct).drop k).take
          (s.writePos + min s.GetAvailableWrite chunk.length
            - (s.writePos + min s.GetAvailableWrite chunk.length) % B - B) := by
      simp only [SSLCrypto.Cipher]
      rw [htf, hhist, hchunk2, ← List.take_add,
        causal_take tD hDc ct _ (by omega), List.length_take,
        Nat.min_eq_left (by omega : k ≤ ct.length), List.drop_take]
      congr 1
      omega
    have hco1len : ((s.crypto.Cipher ((writeAt s.encrypedBuffer s.writePos
        (chunk.take (min s.GetAvailableWrite chunk.length))).take
          (s.writePos + min s.GetAvailableWrite chunk.length
            - (s.writePos + min s.GetAvailableWrite chunk.length) % B - B))).1).length
        = s.writePos + min s.GetAvailableWrite chunk.length
            - (s.writePos + min s.GetAvailableWrite chunk.length) % B - B := by
      rw [hco1]
      simp only [List.length_take, List.length_drop, hPTlen]
      omega
    have hhist' : s.crypto.hist ++ (writeAt s.encrypedBuffer s.writePos
        (chunk.take (min s.GetAvailableWrite chunk.length))).take
          (s.writePos + min s.GetAvailableWrite chunk.length
            - (s.writePos + min s.GetAvailableWrite chunk.length) % B - B)
        = ct.take (k + (s.writePos + min s.GetAvailableWrite chunk.length
            - (s.writePos + min s.GetAvailableWrite chunk.length) % B - B)) := by
      rw [hhist, hchunk2, ← List.take_add]
    have hslicelen : (((writeAt s.encrypedBuffer s.writePos
        (chunk.take (min s.GetAvailableWrite chunk.length))).drop
          (s.writePos + min s.GetAvailableWrite chunk.length
            - (s.writePos + min s.GetAvailableWrite chunk.length) % B - B)).take
          (s.writePos + min s.GetAvailableWrite chunk.length
            - (s.writePos + min s.GetAvailableWrite chunk.length
              - (s.writePos + min s.GetAvailableWrite chunk.length) % B - B))).length
        = s.writePos + min s.GetAvailableWrite chunk.length
            - (s.writePos + min s.GetAvailableWrite chunk.length
              - (s.writePos + min s.GetAvailableWrite chunk.length) % B - B) := by
      simp only [List.length_take, List.length_drop, hencl]
      omega
    have hpendSlice : ((writeAt s.encrypedBuffer s.writePos
        (chunk.take (min s.GetAvailableWrite chunk.length))).drop
          (s.writePos + min s.GetAvailableWrite chunk.length
            - (s.writePos + min s.GetAvailableWrite chunk.length) % B - B)).take
          (s.writePos + min s.GetAvailableWrite chunk.length
            - (s.writePos + min s.GetAvailableWrite chunk.length
              - (s.writePos + min s.GetAvailableWrite chunk.length) % B - B))
        = (ct.drop (k + (s.writePos + min s.GetAvailableWrite chunk.length
            - (s.writePos + min s.GetAvailableWrite chunk.length) % B - B))).take
          (s.writePos + min s.GetAvailableWrite chunk.length
            - (s.writePos + min s.GetAvailableWrite chunk.length
              - (s.writePos + min s.GetAvailableWrite chunk.length) % B - B)) := by
      rw [← List.drop_take, hpend', List.drop_take, List.drop_drop]
    refine ⟨k + (s.writePos + min s.GetAvailableWrite chunk.length
      - (s.writePos + min s.GetAvailableWrite chunk.length) % B - B),
      by omega, ?_, ?_, ?_⟩
    · dsimp only
      omega
    · refine Or.inl ?_
      show B ≤ _
      dsimp only
      rw [hco1len]
      exact hAnew_ge
    · refine ⟨rfl, htf, ?_, ?_, ?_, ?_, ?_, ?_, hne', ?_, ?_, ?_, hrp, ?_, ?_, ?_⟩
      · exact hhist'
      · exact ⟨i + ((s.writePos + min s.GetAvailableWrite chunk.length) / B - 1),
          by rw [Nat.mul_add, ← hAnew_mul, ← hi]⟩
      · refine Or.inr ?_
        dsimp only
        omega
      · dsimp only
        omega
      · dsimp only
        rw [hpendSlice, writeAt_zero_take_of _ _ _
          (by simp only [List.length_take, List.length_drop]; omega)]
      · dsimp only
        rw [hsrc']
        congr 1
        omega
      · dsimp only
        omega
      · refine (writeAt_length _ _ _ ?_).trans hbuf
        rw [hco1len, hbuf]
        omega
      · refine (writeAt_length _ _ _ ?_).trans hencl
        rw [hslicelen, hencl]
        omega
      · dsimp only
        rw [hco1len]
        omega
      · dsimp only
        rw [hco1len]
        omega
      · dsimp only
        rw [writeAt_zero_take_of _ _ _
          (hco1len.trans (by omega : (s.writePos + min s.GetAvailableWrite chunk.length
            - (s.writePos + min s.GetAvailableWrite chunk.length) % B - B)
            = k + (s.writePos + min s.GetAvailableWrite chunk.length
              - (s.writePos + min s.GetAvailableWrite chunk.length) % B - B) - k)), hco1]
        congr 1
        omega
  · -- below two blocks: accumulate only
    rename_i hneg
    have h2B : s.writePos + min s.GetAvailableWrite chunk.length < 2 * B := by
      omega
    refine ⟨hlen1, hlenc, by dsimp only; exact hbytes, k, Nat.le_refl k,
      by dsimp only; omega, ?_, ?_⟩
    · refine Or.inr ⟨hre, rfl, rfl, htf, hhist, ⟨i, hi⟩, hkB, ?_, hpend', hsrc',
        hne', h2B, hbuf, hencl, hrp, hre⟩
      dsimp only
      omega
    · refine ⟨rfl, htf, hhist, ⟨i, hi⟩, hkB, ?_, hpend', hsrc', hne', h2B,
        hbuf, hencl, hrp, ?_, ?_, ?_⟩
      · dsimp only
        omega
      · dsimp only
        omega
      · dsimp only
        omega
      · simp

/-- The loop precondition is the postcondition with nothing yet produced. -/
theorem loopPre_loopPost (tD : List Nat → List Nat) (B : Nat) (ct : List Nat)
    (k : Nat) (s : BlockDecryptionStream) (hcap : 2 * B ≤ capacity)
    (h : LoopPre tD B ct k s) : LoopPost tD B ct k k s := by
  obtain ⟨hbs, htf, hhist, hmul, hkB, hkw, hpend, hsrc, hne, hwlt, hbuf, henc,
    hrp, hre⟩ := h
  exact ⟨hbs, htf, hhist, hmul, hkB, hkw, hpend, hsrc, hne, hwlt, hbuf, henc,
    hrp, by omega, by omega, by rw [Nat.sub_self]; simp⟩

/-- When the `while` guard is false the pull loop returns immediately,
whatever the fuel. -/
theorem decryptLoop_exit (s : BlockDecryptionStream)
    (h : ¬(0 < s.GetAvailableWrite ∧ s.GetAvailableRead < s.blockSize)) :
    ∀ fuel m, BlockDecryptionStream.decryptLoop fuel s m = (s, m) := by
  intro fuel m
  cases fuel with
  | zero => rfl
  | succ fuel =>
    simp only [BlockDecryptionStream.decryptLoop]
    rw [if_neg h]

/-- The pull loop run with enough fuel from the loop precondition: the result
satisfies the postcondition at some transform index `k' ≥ k`, the byte
counter grows by exactly the ciphertext taken in, the source shrinks by the
same amount, and the counter strictly grows unless the source was already
empty. -/
theorem decryptLoop_correct (tD : List Nat → List Nat) (B : Nat)
    (ct : List Nat) (hB : 1 ≤ B) (hcap : 2 * B ≤ capacity)
    (hDl : LenPres tD) (hDc : Causal tD) :
    ∀ fuel k m (s : BlockDecryptionStream),
      sourceBytes s.source < fuel → LoopPre tD B ct k s →
      ∃ k', k ≤ k' ∧
        LoopPost tD B ct k k' (BlockDecryptionStream.decryptLoop fuel s m).1 ∧
        m ≤ (BlockDecryptionStream.decryptLoop fuel s m).2 ∧
        k' + (BlockDecryptionStream.decryptLoop fuel s m).1.writePos + m
          = k + s.writePos + (BlockDecryptionStream.decryptLoop fuel s m).2 ∧
        sourceBytes (BlockDecryptionStream.decryptLoop fuel s m).1.source
            + ((BlockDecryptionStream.decryptLoop fuel s m).2 - m)
          = sourceBytes s.source ∧
        (s.source = [] →
          (BlockDecryptionStream.decryptLoop fuel s m).1 = s ∧
          (BlockDecryptionStream.decryptLoop fuel s m).2 = m) ∧
        (s.source ≠ [] → m < (BlockDecryptionStream.decryptLoop fuel s m).2) := by
  intro fuel
  induction fuel with
  | zero =>
    intro k m s hfuel hpre
    omega
  | succ fuel ih =>
    intro k m s hfuel hpre
    have hp := hpre
    obtain ⟨hbs, htf, hhist, hmul, hkB, hkw, hpend, hsrc, hne, hwlt, hbuf,
      henc, hrp, hre⟩ := hp
    have hguard : 0 < s.GetAvailableWrite ∧ s.GetAvailableRead < s.blockSize := by
      constructor
      · simp only [BlockDecryptionStream.GetAvailableWrite,
          BlockDecryptionStream.GetUsedWrite]
        omega
      · simp only [BlockDecryptionStream.GetAvailableRead]
        omega
    rcases hsq : s.source with _ | ⟨chunk, rest⟩
    · -- empty source: the loop body exits at the failed pull
      have hstep : BlockDecryptionStream.decryptLoop (fuel + 1) s m = (s, m) := by
        simp only [BlockDecryptionStream.decryptLoop]
        rw [if_pos hguard, hsq]
      rw [hstep]
      refine ⟨k, Nat.le_refl k, loopPre_loopPost tD B ct k s hcap hpre,
        Nat.le_refl m, ?_, ?_, fun _ => ⟨rfl, rfl⟩, fun h => absurd rfl h⟩
      · dsimp only
      · dsimp only
        rw [hsq]
        omega
    · -- a span is pulled and one pass runs
      have hs1 : sourceBytes s.source = chunk.length + sourceBytes rest := by
        rw [hsq]
        simp [sourceBytes]
      have hs2 : sourceBytes (chunk :: rest) = chunk.length + sourceBytes rest := by
        simp [sourceBytes]
      obtain ⟨hn1, hnc, hsb, k₁, hkk₁, harith, hexit, hpost⟩ :=
        decryptPass_correct tD B ct k s chunk rest hB hcap hDl hDc hpre hsq
      have hstep : BlockDecryptionStream.decryptLoop (fuel + 1) s m
          = BlockDecryptionStream.decryptLoop fuel (s.decryptPass chunk rest).1
              (m + (s.decryptPass chunk rest).2) := by
        simp only [BlockDecryptionStream.decryptLoop]
        rw [if_pos hguard, hsq]
      rw [hstep]
      rcases hexit with hBre | ⟨hre0, hk₁k, hpre'⟩
      · -- at least a block of plaintext: the next guard check fails
        have hbs₁ := hpost.1
        have hrp₁ := hpost.2.2.2.2.2.2.2.2.2.2.2.2.1
        have hguard' : ¬(0 < (s.decryptPass chunk rest).1.GetAvailableWrite ∧
            (s.decryptPass chunk rest).1.GetAvailableRead
              < (s.decryptPass chunk rest).1.blockSize) := by
          intro hg
          have hlt := hg.2
          simp only [BlockDecryptionStream.GetAvailableRead] at hlt
          omega
        rw [decryptLoop_exit _ hguard' fuel (m + (s.decryptPass chunk rest).2)]
        refine ⟨k₁, hkk₁, hpost, by omega, by dsimp only; omega,
          by dsimp only; omega, ?_, fun _ => by dsimp only; omega⟩
        intro h
        exact absurd h (List.cons_ne_nil _ _)
      · -- nothing transformed: the precondition holds again, recurse
        have hfuel' : sourceBytes (s.decryptPass chunk rest).1.source < fuel := by
          omega
        obtain ⟨k'', hk'', hpost'', hm'', harith'', hsb'', hemp'', hnemp''⟩ :=
          ih k (m + (s.decryptPass chunk rest).2) (s.decryptPass chunk rest).1
            hfuel' hpre'
        refine ⟨k'', hk'', hpost'', by omega, by omega, by omega, ?_,
          fun _ => by omega⟩
        intro h
        exact absurd h (List.cons_ne_nil _ _)

/-- Draining the decryptor with `NextRead`/`AdvanceRead` from the loop
precondition (plaintext window fully consumed) serves exactly the
transformed prefix of the ciphertext and stops with the source empty and the
precondition holding at the final transform index. -/
theorem readAll_correct (tD : List Nat → List Nat) (B : Nat) (ct : List Nat)
    (hB : 1 ≤ B) (hcap : 2 * B ≤ capacity)
    (hDl : LenPres tD) (hDc : Causal tD) :
    ∀ fuel k (s : BlockDecryptionStream) acc,
      sourceBytes s.source < fuel →
      LoopPre tD B ct k { s with readPos := 0, readEnd := 0 } →
      s.readPos = s.readEnd →
      acc = (tD ct).take k →
      ∃ k', k ≤ k' ∧
        LoopPre tD B ct k' (readAll fuel s acc).1 ∧
        (readAll fuel s acc).1.source = [] ∧
        (readAll fuel s acc).2 = (tD ct).take k' := by
  intro fuel
  induction fuel with
  | zero =>
    intro k s acc hfuel hpre hrr hacc
    omega
  | succ fuel ih =>
    intro k s acc hfuel hpre hrr hacc
    have hav : s.GetAvailableRead = 0 := by
      simp only [BlockDecryptionStream.GetAvailableRead]
      omega
    obtain ⟨k₁, hkk₁, hpost, hm0, harith, hsb, hemp, hnemp⟩ :=
      decryptLoop_correct tD B ct hB hcap hDl hDc (sourceBytes s.source + 1) k 0
        { s with readPos := 0, readEnd := 0 } (Nat.lt_succ_self _) hpre
    dsimp only at hsb
    by_cases hsrc0 : s.source = []
    · -- the pull finds nothing: NextRead reports no data and draining stops
      obtain ⟨hL1, hL2⟩ := hemp hsrc0
      have hdec : s.Decrypt = ({ s with readPos := 0, readEnd := 0 }, false) := by
        unfold BlockDecryptionStream.Decrypt
        dsimp only
        rw [hL1, hL2]
        rfl
      have hnr : s.NextRead = (({ s with readPos := 0, readEnd := 0 } :
          BlockDecryptionStream), none) := by
        unfold BlockDecryptionStream.NextRead
        rw [if_pos hav, hdec]
        rfl
      have hra : readAll (fuel + 1) s acc
          = (({ s with readPos := 0, readEnd := 0 } :
              BlockDecryptionStream), acc) := by
        simp only [readAll]
        rw [hnr]
      rw [hra]
      exact ⟨k, Nat.le_refl k, hpre, hsrc0, hacc⟩
    · -- data was pulled: consume the served span and recurse
      have hpos : 0 < (BlockDecryptionStream.decryptLoop
          (sourceBytes s.source + 1) { s with readPos := 0, readEnd := 0 } 0).2 :=
        hnemp hsrc0
      obtain ⟨hbs₁, htf₁, hhist₁, hmul₁, hkB₁, hkw₁, hpend₁, hsrc₁, hne₁,
        hwlt₁, hbuf₁, henc₁, hrp₁, hre₁, hsum₁, htake₁⟩ := hpost
      have hPT : (tD ct).length = ct.length := hDl ct
      have hdec : s.Decrypt = ((BlockDecryptionStream.decryptLoop
          (sourceBytes s.source + 1) { s with readPos := 0, readEnd := 0 } 0).1,
          true) := by
        unfold BlockDecryptionStream.Decrypt
        dsimp only
        rw [decide_eq_true hpos]
      have hnr : s.NextRead = ((BlockDecryptionStream.decryptLoop
          (sourceBytes s.source + 1) { s with readPos := 0, readEnd := 0 } 0).1,
          some (((BlockDecryptionStream.decryptLoop (sourceBytes s.source + 1)
              { s with readPos := 0, readEnd := 0 } 0).1.buffer.drop
            (BlockDecryptionStream.decryptLoop (sourceBytes s.source + 1)
              { s with readPos := 0, readEnd := 0 } 0).1.readPos).take
            (BlockDecryptionStream.decryptLoop (sourceBytes s.source + 1)
              { s with readPos := 0, readEnd := 0 } 0).1.GetAvailableRead)) := by
        unfold BlockDecryptionStream.NextRead
        rw [if_pos hav, hdec]
        rfl
      have hspan : ((BlockDecryptionStream.decryptLoop (sourceBytes s.source + 1)
            { s with readPos := 0, readEnd := 0 } 0).1.buffer.drop
          (BlockDecryptionStream.decryptLoop (sourceBytes s.source + 1)
            { s with readPos := 0, readEnd := 0 } 0).1.readPos).take
          (BlockDecryptionStream.decryptLoop (sourceBytes s.source + 1)
            { s with readPos := 0, readEnd := 0 } 0).1.GetAvailableRead
          = ((tD ct).drop k).take (k₁ - k) := by
        simp only [BlockDecryptionStream.GetAvailableRead]
        rw [hrp₁, hre₁, List.drop_zero, Nat.sub_zero]
        exact htake₁
      have hsplen : (((tD ct).drop k).take (k₁ - k)).length = k₁ - k := by
        simp only [List.length_take, List.length_drop, hPT]
        omega
      have hcond : (((tD ct).drop k).take (k₁ - k)).length
          ≤ (BlockDecryptionStream.decryptLoop (sourceBytes s.source + 1)
              { s with readPos := 0, readEnd := 0 } 0).1.GetAvailableRead := by
        simp only [BlockDecryptionStream.GetAvailableRead]
        rw [hsplen, hrp₁, hre₁]
        omega
      have hadv : (BlockDecryptionStream.decryptLoop (sourceBytes s.source + 1)
            { s with readPos := 0, readEnd := 0 } 0).1.AdvanceRead
            (((tD ct).drop k).take (k₁ - k)).length
          = ({ (BlockDecryptionStream.decryptLoop (sourceBytes s.source + 1)
                { s with readPos := 0, readEnd := 0 } 0).1 with
              readPos := (BlockDecryptionStream.decryptLoop
                (sourceBytes s.source + 1)
                { s with readPos := 0, readEnd := 0 } 0).1.readPos
                + (((tD ct).drop k).take (k₁ - k)).length }, true) := by
        unfold BlockDecryptionStream.AdvanceRead
        rw [if_pos hcond]
      have hra : readAll (fuel + 1) s acc
          = readAll fuel ({ (BlockDecryptionStream.decryptLoop
                (sourceBytes s.source + 1)
                { s with readPos := 0, readEnd := 0 } 0).1 with
              readPos := (BlockDecryptionStream.decryptLoop
                (sourceBytes s.source + 1)
                { s with readPos := 0, readEnd := 0 } 0).1.readPos
                + (((tD ct).drop k).take (k₁ - k)).length })
              (acc ++ ((tD ct).drop k).take (k₁ - k)) := by
        simp only [readAll]
        rw [hnr, hspan]
        dsimp only
        rw [hadv]
      rw [hra]
      have hacc' : acc ++ ((tD ct).drop k).take (k₁ - k) = (tD ct).take k₁ := by
        rw [hacc, ← List.take_add]
        congr 1
        omega
      have hfuel₂ : sourceBytes ({ (BlockDecryptionStream.decryptLoop
            (sourceBytes s.source + 1) { s with readPos := 0, readEnd := 0 } 0).1
            with readPos := (BlockDecryptionStream.decryptLoop
              (sourceBytes s.source + 1)
              { s with readPos := 0, readEnd := 0 } 0).1.readPos
              + (((tD ct).drop k).take (k₁ - k)).length } :
          BlockDecryptionStream).source < fuel := by
        show sourceBytes (BlockDecryptionStream.decryptLoop
          (sourceBytes s.source + 1)
          { s with readPos := 0, readEnd := 0 } 0).1.source < fuel
        omega
      have hpre₂ : LoopPre tD B ct k₁
          ({ ({ (BlockDecryptionStream.decryptLoop (sourceBytes s.source + 1)
                { s with readPos := 0, readEnd := 0 } 0).1
              with readPos := (BlockDecryptionStream.decryptLoop
                (sourceBytes s.source + 1)
                { s with readPos := 0, readEnd := 0 } 0).1.readPos
                + (((tD ct).drop k).take (k₁ - k)).length } :
            BlockDecryptionStream) with readPos := 0, readEnd := 0 }) :=
        ⟨hbs₁, htf₁, hhist₁, hmul₁, hkB₁, hkw₁, hpend₁, hsrc₁, hne₁, hwlt₁,
          hbuf₁, henc₁, rfl, rfl⟩
      have hrr₂ : ({ (BlockDecryptionStream.decryptLoop (sourceBytes s.source + 1)
            { s with readPos := 0, readEnd := 0 } 0).1
            with readPos := (BlockDecryptionStream.decryptLoop
              (sourceBytes s.source + 1)
              { s with readPos := 0, readEnd := 0 } 0).1.readPos
              + (((tD ct).drop k).take (k₁ - k)).length } :
          BlockDecryptionStream).readPos
          = ({ (BlockDecryptionStream.decryptLoop (sourceBytes s.source + 1)
              { s with readPos := 0, readEnd := 0 } 0).1
              with readPos := (BlockDecryptionStream.decryptLoop
                (sourceBytes s.source + 1)
                { s with readPos := 0, readEnd := 0 } 0).1.readPos
                + (((tD ct).drop k).take (k₁ - k)).length } :
            BlockDecryptionStream).readEnd := by
        show (BlockDecryptionStream.decryptLoop (sourceBytes s.source + 1)
            { s with readPos := 0, readEnd := 0 } 0).1.readPos
            + (((tD ct).drop k).take (k₁ - k)).length
          = (BlockDecryptionStream.decryptLoop (sourceBytes s.source + 1)
            { s with readPos := 0, readEnd := 0 } 0).1.readEnd
        rw [hrp₁, hre₁, hsplen]
        omega
      obtain ⟨k'', hk'', hpreF, hsrcF, haccF⟩ :=
        ih k₁ ({ (BlockDecryptionStream.decryptLoop (sourceBytes s.source + 1)
              { s with readPos := 0, readEnd := 0 } 0).1
            with readPos := (BlockDecryptionStream.decryptLoop
              (sourceBytes s.source + 1)
              { s with readPos := 0, readEnd := 0 } 0).1.readPos
              + (((tD ct).drop k).take (k₁ - k)).length })
          (acc ++ ((tD ct).drop k).take (k₁ - k)) hfuel₂ hpre₂ hrr₂ hacc'
      exact ⟨k'', Nat.le_trans hkk₁ hk'', hpreF, hsrcF, haccF⟩

/-- Full behaviour of `decryptAll` on a ciphertext that is a whole number of
blocks and decrypts to data plus a padding trailer: the drained reads plus
the flushed final span are exactly the data. -/
theorem decryptAll_correct (tD : List Nat → List Nat) (B : Nat)
    (ct D : List Nat) (p : Nat) (src : Source)
    (hB : 1 ≤ B) (hcap : 2 * B ≤ capacity)
    (hDl : LenPres tD) (hDc : Causal tD)
    (hsrcf : src.flatten = ct) (hne : ∀ c ∈ src, c ≠ [])
    (hmul : ∃ j, ct.length = B * j)
    (hPT : tD ct = D ++ padTrailer p)
    (hlen : ct.length = D.length + p)
    (hp1 : 1 ≤ p) (hpB : p ≤ B) (hp255 : p < 256) :
    decryptAll tD B src = D := by
  obtain ⟨j, hj⟩ := hmul
  have hPTl : (tD ct).length = ct.length := hDl ct
  have hpre0 : LoopPre tD B ct 0
      { (BlockDecryptionStream.new src).Init tD B with
        readPos := 0, readEnd := 0 } := by
    unfold BlockDecryptionStream.new BlockDecryptionStream.Init
    refine ⟨rfl, rfl, by simp, ⟨0, by simp⟩, Or.inl rfl,
      by dsimp only; omega, by simp, ?_, hne, by dsimp only; omega,
      by simp, by simp, rfl, rfl⟩
    show src.flatten = ct.drop (0 + 0)
    rw [hsrcf]
    simp
  obtain ⟨kF, hk0, hpreF, hsrcF, haccF⟩ :=
    readAll_correct tD B ct hB hcap hDl hDc (sourceBytes src + 1) 0
      ((BlockDecryptionStream.new src).Init tD B) [] (Nat.lt_succ_self _)
      hpre0 rfl (by simp)
  obtain ⟨hbsF, htfF, hhistF, ⟨iF, hiF⟩, hkBF, hkwF, hpendF, hsrcFlatF, hneF,
    hwltF, hbufF, hencF, hrpF, hreF⟩ := hpreF
  rw [hsrcF] at hsrcFlatF
  have hdl0 := congrArg List.length hsrcFlatF
  simp only [List.flatten_nil, List.length_nil, List.length_drop] at hdl0
  have hlenF : kF + (readAll (sourceBytes src + 1)
      ((BlockDecryptionStream.new src).Init tD B) []).1.writePos
      = ct.length := by omega
  have hwpd : (readAll (sourceBytes src + 1)
      ((BlockDecryptionStream.new src).Init tD B) []).1.writePos
      = B * (j - iF) := by
    have hms := Nat.mul_sub B j iF
    omega
  have hd1 : 1 ≤ j - iF := by
    rcases Nat.eq_zero_or_pos (j - iF) with h0 | h1
    · rw [h0, Nat.mul_zero] at hwpd
      omega
    · exact h1
  have hBle : B ≤ (readAll (sourceBytes src + 1)
      ((BlockDecryptionStream.new src).Init tD B) []).1.writePos := by
    have h2 := Nat.mul_le_mul_left B hd1
    rw [Nat.mul_one] at h2
    omega
  have hwpB : (readAll (sourceBytes src + 1)
      ((BlockDecryptionStream.new src).Init tD B) []).1.writePos = B := by
    rcases Nat.lt_or_ge (j - iF) 2 with h2 | h2
    · have he1 : j - iF = 1 := by omega
      rw [he1, Nat.mul_one] at hwpd
      exact hwpd
    · have h3 := Nat.mul_le_mul_left B h2
      have h4 : B * 2 = 2 * B := by ring
      omega
  have hkFle : kF ≤ ct.length := by omega
  have hfco : flushCo (readAll (sourceBytes src + 1)
      ((BlockDecryptionStream.new src).Init tD B) []).1 = (tD ct).drop kF := by
    simp only [flushCo, SSLCrypto.Cipher]
    rw [htfF, hhistF, hpendF]
    have htofl : (ct.drop kF).take (readAll (sourceBytes src + 1)
          ((BlockDecryptionStream.new src).Init tD B) []).1.writePos
        = ct.drop kF :=
      List.take_of_length_le (by rw [List.length_drop]; omega)
    rw [htofl, List.take_append_drop]
    rw [List.length_take, Nat.min_eq_left hkFle]
  have hdroplen : ((tD ct).drop kF).length = B := by
    rw [List.length_drop, hPTl]
    omega
  have hfpb : flushPadByte (readAll (sourceBytes src + 1)
      ((BlockDecryptionStream.new src).Init tD B) []).1 = p := by
    simp only [flushPadByte]
    rw [hfco, hdroplen]
    have hg1 : ((tD ct).drop kF).getD (B - 1) 0
        = (tD ct).getD (kF + (B - 1)) 0 := by
      simp [List.getD, List.getElem?_drop]
    rw [hg1, hPT,
      List.getD_append_right D (padTrailer p) 0 (kF + (B - 1)) (by omega)]
    simp only [padTrailer]
    rw [List.getD_append_right (List.replicate (p - 1) 0) [p % 256] 0
      (kF + (B - 1) - D.length) (by simp [List.length_replicate]; omega)]
    rw [show kF + (B - 1) - D.length - (List.replicate (p - 1) 0).length = 0 from
      by simp [List.length_replicate]; omega]
    simp [List.getD, Nat.mod_eq_of_lt hp255]
  have htfLen : LenPres (readAll (sourceBytes src + 1)
      ((BlockDecryptionStream.new src).Init tD B) []).1.crypto.tf := by
    rw [htfF]
    exact hDl
  obtain ⟨hw0, hbufeq, hrpeq, hgood, hbad⟩ :=
    flush_spec (readAll (sourceBytes src + 1)
        ((BlockDecryptionStream.new src).Init tD B) []).1
      htfLen hbufF hencF (by omega) (by omega)
  obtain ⟨hreGood, hflag⟩ := hgood (by rw [hfpb, hbsF]; omega)
  unfold decryptAll
  dsimp only
  simp only [BlockDecryptionStream.GetAvailableRead]
  rw [haccF, hbufeq, hrpeq, hrpF, hreGood, hfpb, hreF, hwpB, hfco]
  rw [List.drop_zero]
  rw [show 0 + B - p - 0 = B - p from by omega]
  have hwtake : (writeAt (readAll (sourceBytes src + 1)
        ((BlockDecryptionStream.new src).Init tD B) []).1.buffer 0
        ((tD ct).drop kF)).take (B - p)
      = ((tD ct).drop kF).take (B - p) := by
    have h1 := writeAt_zero_take_of (readAll (sourceBytes src + 1)
      ((BlockDecryptionStream.new src).Init tD B) []).1.buffer
      ((tD ct).drop kF) B hdroplen
    have h2 := congrArg (List.take (B - p)) h1
    simp only [List.take_take] at h2
    rw [Nat.min_eq_left (by omega)] at h2
    exact h2
  rw [hwtake, ← List.take_add, hPT]
  rw [show kF + (B - p) = D.length from by omega]
  rw [List.take_left]

/-- C1: for every plaintext (presented as any sequence of application
writes) and every supported block size `B` (`1 ≤ B ≤ 255`, so the
padding-length byte can represent the pad), encrypting through a
`BlockEncryptionStream` (`AdvanceWrite` per chunk, then one `Flush`) and
decrypting the produced ciphertext through a `BlockDecryptionStream`
(`NextRead`/`AdvanceRead` until exhausted, then `Flush`) yields exactly the
original plaintext — for every length, including `0`, `B-1`, `B`, `B+1` and
multiples of `B`, any chunking of the plaintext that fits the 4096-byte
window alongside a block, and any nonempty-span chunking of the ciphertext.
The cipher pair is any length-preserving causal (online) transform pair
that invert each other, per the §6 session contract. -/
theorem round_trip (tE tD : List Nat → List Nat) (B : Nat)
    (chunks : List (List Nat)) (src : Source)
    (hB : 1 ≤ B) (hB255 : B ≤ 255)
    (hEl : LenPres tE) (hEc : Causal tE)
    (hDl : LenPres tD) (hDc : Causal tD)
    (hInv : ∀ xs, tD (tE xs) = xs)
    (hfit : ∀ c ∈ chunks, c.length + B ≤ capacity)
    (hsrc : src.flatten = (encryptAll tE B chunks).out)
    (hne : ∀ c ∈ src, c ≠ []) :
    decryptAll tD B src = chunks.flatten := by
  have hcap2 : 2 * B ≤ capacity := by
    simp only [capacity]
    omega
  have hcap1 : B < capacity := by
    simp only [capacity]
    omega
  obtain ⟨hctE, hctl⟩ := encryptAll_out tE B chunks hB hcap1 hEl hEc hfit
  have hmB := Nat.mod_lt chunks.flatten.length (show 0 < B from hB)
  refine decryptAll_correct tD B (encryptAll tE B chunks).out chunks.flatten
    (B - chunks.flatten.length % B) src hB hcap2 hDl hDc hsrc hne ?_ ?_ hctl
    (by omega) (by omega) (by omega)
  · refine ⟨chunks.flatten.length / B + 1, ?_⟩
    have hdm := Nat.div_add_mod chunks.flatten.length B
    rw [hctl, Nat.mul_add, Nat.mul_one]
    omega
  · rw [hctE, hInv]

/-- Witness for C1 at the concrete instance `B = 1`, empty plaintext, the
identity transform pair: the ciphertext is the one-byte pad `[1]` and the
round trip returns the empty plaintext. -/
theorem round_trip_witness :
    (∀ c ∈ ([[1]] : Source), c ≠ []) ∧
    ([[1]] : Source).flatten = (encryptAll idTf 1 []).out ∧
    decryptAll idTf 1 [[1]] = ([] : List (List Nat)).flatten := by
  have hsrc : ([[1]] : Source).flatten = (encryptAll idTf 1 []).out := by
    rw [(encryptAll_out idTf 1 [] (by decide) (by decide) idTf_lenPres
      idTf_causal (by simp)).1]
    decide
  exact ⟨by decide, hsrc,
    round_trip idTf idTf 1 [] [[1]] (by decide) (by decide) idTf_lenPres
      idTf_causal idTf_lenPres idTf_causal idTf_inverse (by simp) hsrc
      (by decide)⟩

end TWN
